import Mathlib

set_option maxRecDepth 8000

/-!
Verification of the memory/serialization substrate of taglib-wasm
(`src/capi/core/taglib_msgpack.c` and `src/capi/core/taglib_memory.cpp`).

Shallow embedding conventions:
* Bytes are `Nat` values; byte buffers are `List Nat`.  Well-formedness
  (each byte below 256) appears as a hypothesis where it matters.
* `size_t` is the 32-bit `size_t` of the wasm32 target; arithmetic that can
  wrap is taken modulo `2 ^ 32` explicitly.
* The mpack primitives used by `taglib_msgpack.c` are modelled as the
  standard MessagePack wire codec (the spec fixes the wire format to be
  byte-for-byte the map/str/uint primitive encodings of MessagePack, and
  the mpack library itself is an external collaborator, not part of the
  repository sources).  Parsing primitives return `Option`; the call sites
  in `tags_decode` translate a failure into the `mp_status` the C code
  returns at that site.
* C strings (`const char*`) are NUL-free byte lists; a NULL pointer and
  the empty string are both modelled as `[]`, which is adequate because
  every operation of the codec treats them identically
  (`tags->title ? tags->title : ""`).
-/

/-- Status enumeration from `taglib_msgpack.h` (`mp_status`). -/

inductive mp_status where
  | MP_OK
  | MP_ERR_TRUNCATED
  | MP_ERR_TYPE
  | MP_ERR_RANGE
  | MP_ERR_NOMEM
  | MP_ERR_INTERNAL
  | MP_ERR_INVALID_DATA
deriving DecidableEq, Repr

open mp_status

/-- Big-endian bytes of `n`, `k` bytes wide (most significant first). -/

def beBytes : Nat → Nat → List Nat
  | 0, _ => []
  | k + 1, n => beBytes k (n / 256) ++ [n % 256]

/-- Read `k` big-endian bytes from the front of a buffer. -/

def rdBE (k : Nat) (bs : List Nat) : Option (Nat × List Nat) :=
  if k ≤ bs.length then
    some ((bs.take k).foldl (fun a b => a * 256 + b) 0, bs.drop k)
  else none

/-- MessagePack str header for a payload of `len` bytes
(fixstr / str8 / str16 / str32), as `mpack_write_str` chooses it. -/

def strHdr (len : Nat) : List Nat :=
  if len ≤ 31 then [0xa0 + len]
  else if len ≤ 0xff then [0xd9, len]
  else if len ≤ 0xffff then [0xda] ++ beBytes 2 len
  else [0xdb] ++ beBytes 4 len

/-- MessagePack encoding of a str value (header plus payload bytes). -/

def strEnc (s : List Nat) : List Nat := strHdr s.length ++ s

/-- MessagePack minimal encoding of an unsigned integer, as
`mpack_write_uint` chooses it. -/

def uintEnc (n : Nat) : List Nat :=
  if n ≤ 0x7f then [n]
  else if n ≤ 0xff then [0xcc, n]
  else if n ≤ 0xffff then [0xcd] ++ beBytes 2 n
  else if n ≤ 0xffffffff then [0xce] ++ beBytes 4 n
  else [0xcf] ++ beBytes 8 n

/-- MessagePack map header (fixmap / map16 / map32), as
`mpack_start_map` chooses it. -/

def mapHdr (n : Nat) : List Nat :=
  if n ≤ 15 then [0x80 + n]
  else if n ≤ 0xffff then [0xde] ++ beBytes 2 n
  else [0xdf] ++ beBytes 4 n

/-- Model of `mpack_expect_map`: reads a map tag and returns the entry count. -/

def mpExpectMap (bs : List Nat) : Option (Nat × List Nat) :=
  match bs with
  | [] => none
  | b :: r =>
    if 0x80 ≤ b ∧ b ≤ 0x8f then some (b - 0x80, r)
    else if b = 0xde then rdBE 2 r
    else if b = 0xdf then rdBE 4 r
    else none

/-- Model of `mpack_expect_str`: reads a str tag and returns the payload length
(the payload itself is left in the buffer). -/

def mpExpectStrLen (bs : List Nat) : Option (Nat × List Nat) :=
  match bs with
  | [] => none
  | b :: r =>
    if 0xa0 ≤ b ∧ b ≤ 0xbf then some (b - 0xa0, r)
    else if b = 0xd9 then rdBE 1 r
    else if b = 0xda then rdBE 2 r
    else if b = 0xdb then rdBE 4 r
    else none

/-- Model of `mpack_read_bytes`: takes `n` raw bytes from the buffer. -/

def mpReadBytes (n : Nat) (bs : List Nat) : Option (List Nat × List Nat) :=
  if n ≤ bs.length then some (bs.take n, bs.drop n) else none

/-- Model of `mpack_expect_uint` (with the 32-bit `unsigned int` of wasm32): reads
an integer tag, accepting the uint family and non-negative int values up
to `UINT_MAX`; anything else is a type error. -/

def mpExpectUint32 (bs : List Nat) : Option (Nat × List Nat) :=
  match bs with
  | [] => none
  | b :: r =>
    if b ≤ 0x7f then some (b, r)
    else if b = 0xcc then rdBE 1 r
    else if b = 0xcd then rdBE 2 r
    else if b = 0xce then rdBE 4 r
    else if b = 0xcf then
      match rdBE 8 r with
      | some (v, r2) => if v ≤ 0xffffffff then some (v, r2) else none
      | none => none
    else if b = 0xd0 then
      match rdBE 1 r with
      | some (v, r2) => if v ≤ 0x7f then some (v, r2) else none
      | none => none
    else if b = 0xd1 then
      match rdBE 2 r with
      | some (v, r2) => if v ≤ 0x7fff then some (v, r2) else none
      | none => none
    else if b = 0xd2 then
      match rdBE 4 r with
      | some (v, r2) => if v ≤ 0x7fffffff then some (v, r2) else none
      | none => none
    else if b = 0xd3 then
      match rdBE 8 r with
      | some (v, r2) => if v ≤ 0x7fffffffffffffff ∧ v ≤ 0xffffffff then some (v, r2) else none
      | none => none
    else none

/-- Skip `n` raw bytes (used while discarding values). -/

def mpSkip (n : Nat) (bs : List Nat) : Option (List Nat) :=
  if n ≤ bs.length then some (bs.drop n) else none

/-- Classification of a MessagePack tag byte, used by the model of
`mpack_discard`.  `plain k`: the value is the tag plus `k` payload bytes.
`lenPre k`: a `k`-byte big-endian length follows, then that many payload
bytes (str/bin).  `container k`: `k` further values follow (fixarray,
fixmap counts entries twice).  `lenContainer k m`: a `k`-byte length `l`
follows, then `m * l` further values.  `bad`: reserved or ext tags, which
mpack (built without MPACK_EXTENSIONS) rejects as invalid. -/

inductive TagShape where
  | plain (k : Nat)
  | lenPre (k : Nat)
  | container (k : Nat)
  | lenContainer (k m : Nat)
  | bad
deriving DecidableEq

def tagShape (b : Nat) : TagShape :=
  if b ≤ 0x7f then .plain 0
  else if b ≤ 0x8f then .container (2 * (b - 0x80))
  else if b ≤ 0x9f then .container (b - 0x90)
  else if b ≤ 0xbf then .plain (b - 0xa0)
  else if b = 0xc0 then .plain 0
  else if b = 0xc1 then .bad
  else if b ≤ 0xc3 then .plain 0
  else if b = 0xc4 then .lenPre 1
  else if b = 0xc5 then .lenPre 2
  else if b = 0xc6 then .lenPre 4
  else if b ≤ 0xc9 then .bad
  else if b = 0xca then .plain 4
  else if b = 0xcb then .plain 8
  else if b = 0xcc then .plain 1
  else if b = 0xcd then .plain 2
  else if b = 0xce then .plain 4
  else if b = 0xcf then .plain 8
  else if b = 0xd0 then .plain 1
  else if b = 0xd1 then .plain 2
  else if b = 0xd2 then .plain 4
  else if b = 0xd3 then .plain 8
  else if b ≤ 0xd8 then .bad
  else if b = 0xd9 then .lenPre 1
  else if b = 0xda then .lenPre 2
  else if b = 0xdb then .lenPre 4
  else if b = 0xdc then .lenContainer 2 1
  else if b = 0xdd then .lenContainer 4 1
  else if b = 0xde then .lenContainer 2 2
  else if b = 0xdf then .lenContainer 4 2
  else .plain 0

/-- Model of `mpack_discard`, generalised to discarding `c` consecutive
values.  `fuel` only bounds the recursion; every call site passes enough
fuel (each recursive step strictly consumes input, so `length + 2` always
suffices for one value), and the fuel-exhaustion branch is unreachable
there. -/

def mpDiscardN : Nat → Nat → List Nat → Option (List Nat)
  | _, 0, bs => some bs
  | 0, _ + 1, _ => none
  | fuel + 1, c + 1, bs =>
    match bs with
    | [] => none
    | b :: r =>
      match tagShape b with
      | .plain k =>
        match mpSkip k r with
        | some r2 => mpDiscardN fuel c r2
        | none => none
      | .lenPre k =>
        match rdBE k r with
        | some (l, r1) =>
          match mpSkip l r1 with
          | some r2 => mpDiscardN fuel c r2
          | none => none
        | none => none
      | .container k =>
        match mpDiscardN fuel k r with
        | some r1 => mpDiscardN fuel c r1
        | none => none
      | .lenContainer k m =>
        match rdBE k r with
        | some (l, r1) =>
          match mpDiscardN fuel (m * l) r1 with
          | some r2 => mpDiscardN fuel c r2
          | none => none
        | none => none
      | .bad => none

/-- One `mpack_discard` call on a buffer. -/

def mpDiscardOne (bs : List Nat) : Option (List Nat) :=
  mpDiscardN (bs.length + 2) 1 bs

/-- A byte list that the discard machine consumes exactly: the shallow
notion of a single well-formed MessagePack value. -/

def IsValue (v : List Nat) : Prop := mpDiscardN (v.length + 2) 1 v = some []

instance (v : List Nat) : Decidable (IsValue v) := by
  unfold IsValue; infer_instance


/-- Big-endian value of a byte list (as `rdBE` computes it). -/

def beVal (xs : List Nat) : Nat := xs.foldl (fun a b => a * 256 + b) 0

structure TagData where
  title : List Nat
  artist : List Nat
  album : List Nat
  genre : List Nat
  comment : List Nat
  albumArtist : List Nat
  composer : List Nat
  year : Nat
  track : Nat
  disc : Nat
  bpm : Nat
  bitrate : Nat
  sampleRate : Nat
  channels : Nat
  length : Nat
  lengthMs : Nat
deriving DecidableEq, Repr

/-- The zeroed `TagData` produced by `memset(tags, 0, sizeof(TagData))`. -/

def zeroTagData : TagData :=
  ⟨[], [], [], [], [], [], [], 0, 0, 0, 0, 0, 0, 0, 0, 0⟩

-- ASCII bytes of the field-name literals.

def keyTitle : List Nat := [116, 105, 116, 108, 101]

def keyArtist : List Nat := [97, 114, 116, 105, 115, 116]

def keyAlbum : List Nat := [97, 108, 98, 117, 109]

def keyGenre : List Nat := [103, 101, 110, 114, 101]

def keyComment : List Nat := [99, 111, 109, 109, 101, 110, 116]

def keyAlbumArtist : List Nat := [97, 108, 98, 117, 109, 65, 114, 116, 105, 115, 116]

def keyComposer : List Nat := [99, 111, 109, 112, 111, 115, 101, 114]

def keyYear : List Nat := [121, 101, 97, 114]

def keyTrack : List Nat := [116, 114, 97, 99, 107]

def keyDisc : List Nat := [100, 105, 115, 99]

def keyBpm : List Nat := [98, 112, 109]

def keyBitrate : List Nat := [98, 105, 116, 114, 97, 116, 101]

def keySampleRate : List Nat := [115, 97, 109, 112, 108, 101, 82, 97, 116, 101]

def keyChannels : List Nat := [99, 104, 97, 110, 110, 101, 108, 115]

def keyLength : List Nat := [108, 101, 110, 103, 116, 104]

def keyLengthMs : List Nat := [108, 101, 110, 103, 116, 104, 77, 115]

-- mpack writer model: the accumulated buffer contents.

def mpStartMap (out : List Nat) (n : Nat) : List Nat := out ++ mapHdr n

def mpWriteCstr (out : List Nat) (s : List Nat) : List Nat := out ++ strEnc s

def mpWriteUint (out : List Nat) (n : Nat) : List Nat := out ++ uintEnc n

/-- The byte sequence written by `tags_encode`
(`taglib_msgpack.c:158-237`), with the write calls transcribed in source
order. -/

def tags_encode_bytes (t : TagData) : List Nat :=
  let w := mpStartMap [] 16
  let w := mpWriteCstr w keyTitle
  let w := mpWriteCstr w t.title
  let w := mpWriteCstr w keyArtist
  let w := mpWriteCstr w t.artist
  let w := mpWriteCstr w keyAlbum
  let w := mpWriteCstr w t.album
  let w := mpWriteCstr w keyYear
  let w := mpWriteUint w t.year
  let w := mpWriteCstr w keyTrack
  let w := mpWriteUint w t.track
  let w := mpWriteCstr w keyGenre
  let w := mpWriteCstr w t.genre
  let w := mpWriteCstr w keyComment
  let w := mpWriteCstr w t.comment
  let w := mpWriteCstr w keyAlbumArtist
  let w := mpWriteCstr w t.albumArtist
  let w := mpWriteCstr w keyComposer
  let w := mpWriteCstr w t.composer
  let w := mpWriteCstr w keyDisc
  let w := mpWriteUint w t.disc
  let w := mpWriteCstr w keyBpm
  let w := mpWriteUint w t.bpm
  let w := mpWriteCstr w keyBitrate
  let w := mpWriteUint w t.bitrate
  let w := mpWriteCstr w keySampleRate
  let w := mpWriteUint w t.sampleRate
  let w := mpWriteCstr w keyChannels
  let w := mpWriteUint w t.channels
  let w := mpWriteCstr w keyLength
  let w := mpWriteUint w t.length
  let w := mpWriteCstr w keyLengthMs
  let w := mpWriteUint w t.lengthMs
  w

/-- The byte sequence written by `tags_encode_size`
(`taglib_msgpack.c:81-155`); the C source duplicates the write sequence
of `tags_encode`, and this definition transcribes that duplicate. -/

def tags_encode_size_bytes (t : TagData) : List Nat :=
  let w := mpStartMap [] 16
  let w := mpWriteCstr w keyTitle
  let w := mpWriteCstr w t.title
  let w := mpWriteCstr w keyArtist
  let w := mpWriteCstr w t.artist
  let w := mpWriteCstr w keyAlbum
  let w := mpWriteCstr w t.album
  let w := mpWriteCstr w keyYear
  let w := mpWriteUint w t.year
  let w := mpWriteCstr w keyTrack
  let w := mpWriteUint w t.track
  let w := mpWriteCstr w keyGenre
  let w := mpWriteCstr w t.genre
  let w := mpWriteCstr w keyComment
  let w := mpWriteCstr w t.comment
  let w := mpWriteCstr w keyAlbumArtist
  let w := mpWriteCstr w t.albumArtist
  let w := mpWriteCstr w keyComposer
  let w := mpWriteCstr w t.composer
  let w := mpWriteCstr w keyDisc
  let w := mpWriteUint w t.disc
  let w := mpWriteCstr w keyBpm
  let w := mpWriteUint w t.bpm
  let w := mpWriteCstr w keyBitrate
  let w := mpWriteUint w t.bitrate
  let w := mpWriteCstr w keySampleRate
  let w := mpWriteUint w t.sampleRate
  let w := mpWriteCstr w keyChannels
  let w := mpWriteUint w t.channels
  let w := mpWriteCstr w keyLength
  let w := mpWriteUint w t.length
  let w := mpWriteCstr w keyLengthMs
  let w := mpWriteUint w t.lengthMs
  w

/-- Model of `tags_encode_size`.  Modelled from the spec for the part supplied by
the external mpack library: the growable measuring writer returns the
exact serialized size of the record ("serializes into a growable scratch
buffer purely to measure the exact output size").  The write sequence
itself is transcribed from the repository source. -/

def tags_encode_size (t : TagData) : mp_status × Option Nat :=
  (MP_OK, some (tags_encode_size_bytes t).length)

/-- Model of `tags_encode` with a destination buffer of capacity `buf_cap`.
Overflowing a fixed mpack buffer flags `mpack_error_too_big`, which the
source maps to `MP_ERR_RANGE`; on success the result carries the buffer
contents and `*out_len`. -/

def tags_encode (t : TagData) (buf_cap : Nat) :
    mp_status × Option (List Nat × Nat) :=
  if (tags_encode_bytes t).length ≤ buf_cap then
    (MP_OK, some (tags_encode_bytes t, (tags_encode_bytes t).length))
  else (MP_ERR_RANGE, none)

/-- The sixteen known fields, in the (sorted) order of the
`FIELD_HANDLERS` table. -/

inductive TagField where
  | album | albumArtist | artist | bitrate | bpm | channels | comment
  | composer | disc | genre | length | lengthMs | sampleRate | title
  | track | year
deriving DecidableEq, Repr

/-- Key of the `FIELD_HANDLERS` entry at index `i` (the table is sorted
lexicographically; indices beyond 15 never arise). -/

def tableKey (i : Nat) : List Nat :=
  match i with
  | 0 => keyAlbum
  | 1 => keyAlbumArtist
  | 2 => keyArtist
  | 3 => keyBitrate
  | 4 => keyBpm
  | 5 => keyChannels
  | 6 => keyComment
  | 7 => keyComposer
  | 8 => keyDisc
  | 9 => keyGenre
  | 10 => keyLength
  | 11 => keyLengthMs
  | 12 => keySampleRate
  | 13 => keyTitle
  | 14 => keyTrack
  | _ => keyYear

/-- Handler of the `FIELD_HANDLERS` entry at index `i`. -/

def tableField (i : Nat) : TagField :=
  match i with
  | 0 => .album
  | 1 => .albumArtist
  | 2 => .artist
  | 3 => .bitrate
  | 4 => .bpm
  | 5 => .channels
  | 6 => .comment
  | 7 => .composer
  | 8 => .disc
  | 9 => .genre
  | 10 => .length
  | 11 => .lengthMs
  | 12 => .sampleRate
  | 13 => .title
  | 14 => .track
  | _ => .year

/-- C `strcmp` on NUL-free byte lists (end of list plays the role of the
terminating NUL; only the sign of the result is ever used). -/

def strcmpB : List Nat → List Nat → Int
  | [], [] => 0
  | [], b :: _ => -(b : Int)
  | a :: _, [] => (a : Int)
  | a :: as, b :: bs => if a = b then strcmpB as bs else (a : Int) - (b : Int)

/-- The binary-search loop of `find_field_handler`
(`taglib_msgpack.c:367-386`).  The C `while (left <= right)` loop is
modelled with fuel; the range shrinks every iteration, so 17 iterations
can never be reached for a 16-entry table and the fuel-exhaustion branch
is unreachable. -/

def fhSearch (key : List Nat) : Nat → Int → Int → Option TagField
  | 0, _, _ => none
  | fuel + 1, left, right =>
    if left ≤ right then
      if strcmpB key (tableKey (left + (right - left) / 2).toNat) = 0 then
        some (tableField (left + (right - left) / 2).toNat)
      else if strcmpB key (tableKey (left + (right - left) / 2).toNat) < 0 then
        fhSearch key fuel left (left + (right - left) / 2 - 1)
      else fhSearch key fuel (left + (right - left) / 2 + 1) right
    else none

/-- Model of `find_field_handler(key)` where `key` is the decoded key buffer
(wire bytes, NUL-terminated by the decoder).  As a C string the buffer
compares as its bytes up to the first NUL, hence the `takeWhile`. -/

def find_field_handler (key : List Nat) : Option TagField :=
  fhSearch (key.takeWhile (fun b => b ≠ 0)) 17 0 15

/-- Model of `decode_string_field` (`taglib_msgpack.c:243-263`): expects a str
value, copies its bytes into the arena (the arena allocation is modelled
as always succeeding) and NUL-terminates.  A failed `mpack_expect_str`
yields `MP_ERR_TYPE`; a failed `mpack_read_bytes` yields
`MP_ERR_TRUNCATED`. -/

def decode_string_field (bs : List Nat) :
    Except mp_status (List Nat × List Nat) :=
  match mpExpectStrLen bs with
  | none => .error MP_ERR_TYPE
  | some (len, r1) =>
    match mpReadBytes len r1 with
    | none => .error MP_ERR_TRUNCATED
    | some (s, r2) => .ok (s, r2)

/-- The sixteen field handlers (`handle_title` .. `handle_length_ms`):
string handlers run `decode_string_field` into the corresponding field;
numeric handlers run `mpack_expect_uint` and map any reader error to
`MP_ERR_TYPE`. -/

def applyHandler : TagField → TagData → List Nat →
    Except mp_status (TagData × List Nat)
  | .title, t, bs => (decode_string_field bs).map fun p => ({ t with title := p.1 }, p.2)
  | .artist, t, bs => (decode_string_field bs).map fun p => ({ t with artist := p.1 }, p.2)
  | .album, t, bs => (decode_string_field bs).map fun p => ({ t with album := p.1 }, p.2)
  | .genre, t, bs => (decode_string_field bs).map fun p => ({ t with genre := p.1 }, p.2)
  | .comment, t, bs => (decode_string_field bs).map fun p => ({ t with comment := p.1 }, p.2)
  | .albumArtist, t, bs => (decode_string_field bs).map fun p => ({ t with albumArtist := p.1 }, p.2)
  | .composer, t, bs => (decode_string_field bs).map fun p => ({ t with composer := p.1 }, p.2)
  | .year, t, bs =>
    match mpExpectUint32 bs with
    | none => .error MP_ERR_TYPE
    | some (v, r) => .ok ({ t with year := v }, r)
  | .track, t, bs =>
    match mpExpectUint32 bs with
    | none => .error MP_ERR_TYPE
    | some (v, r) => .ok ({ t with track := v }, r)
  | .disc, t, bs =>
    match mpExpectUint32 bs with
    | none => .error MP_ERR_TYPE
    | some (v, r) => .ok ({ t with disc := v }, r)
  | .bpm, t, bs =>
    match mpExpectUint32 bs with
    | none => .error MP_ERR_TYPE
    | some (v, r) => .ok ({ t with bpm := v }, r)
  | .bitrate, t, bs =>
    match mpExpectUint32 bs with
    | none => .error MP_ERR_TYPE
    | some (v, r) => .ok ({ t with bitrate := v }, r)
  | .sampleRate, t, bs =>
    match mpExpectUint32 bs with
    | none => .error MP_ERR_TYPE
    | some (v, r) => .ok ({ t with sampleRate := v }, r)
  | .channels, t, bs =>
    match mpExpectUint32 bs with
    | none => .error MP_ERR_TYPE
    | some (v, r) => .ok ({ t with channels := v }, r)
  | .length, t, bs =>
    match mpExpectUint32 bs with
    | none => .error MP_ERR_TYPE
    | some (v, r) => .ok ({ t with length := v }, r)
  | .lengthMs, t, bs =>
    match mpExpectUint32 bs with
    | none => .error MP_ERR_TYPE
    | some (v, r) => .ok ({ t with lengthMs := v }, r)

/-- The per-entry loop of `tags_decode` (`taglib_msgpack.c:413-452`):
read a key (type error if not a str, truncation error if its bytes are
missing), dispatch through `find_field_handler`, run the handler or
discard the value of an unknown key (any discard failure surfaces as a
type error at that site). -/

def decodeLoop : Nat → TagData → List Nat →
    Except mp_status (TagData × List Nat)
  | 0, t, bs => .ok (t, bs)
  | n + 1, t, bs =>
    match mpExpectStrLen bs with
    | none => .error MP_ERR_TYPE
    | some (klen, r1) =>
      match mpReadBytes klen r1 with
      | none => .error MP_ERR_TRUNCATED
      | some (k, r2) =>
        match find_field_handler k with
        | some f =>
          match applyHandler f t r2 with
          | .error e => .error e
          | .ok (t2, r3) => decodeLoop n t2 r3
        | none =>
          match mpDiscardOne r2 with
          | none => .error MP_ERR_TYPE
          | some r3 => decodeLoop n t r3

/-- Model of `tags_decode` (`taglib_msgpack.c:389-468`) up to the point where the
record is stored through `*out`: zero-initialise the record, expect a
top-level map (any failure is a type error), run the entry loop;
`mpack_done_map` on an untracked reader is a no-op and trailing bytes are
not inspected. -/

def tags_decode_core (bs : List Nat) : Except mp_status TagData :=
  match mpExpectMap bs with
  | none => .error MP_ERR_TYPE
  | some (n, r) =>
    match decodeLoop n zeroTagData r with
    | .error e => .error e
    | .ok (t, _) => .ok t

/-- Model of `tags_decode` with the `*out` parameter made explicit: `out` holds
the value behind the out pointer of the caller before the call, and the returned pair
is the status together with the value of that pointer after the call
(the source writes `*out` only immediately before returning `MP_OK`). -/

def tags_decode (bs : List Nat) (out : Option TagData) :
    mp_status × Option TagData :=
  match tags_decode_core bs with
  | .error e => (e, out)
  | .ok t => (MP_OK, some t)

/-- Keys of a wire map, in order of appearance (values are discarded with
the skip machine); used to state which keys an encoding contains and in
which order. -/

def wireKeysLoop : Nat → List Nat → Option (List (List Nat))
  | 0, _ => some []
  | n + 1, bs =>
    match mpExpectStrLen bs with
    | none => none
    | some (klen, r1) =>
      match mpReadBytes klen r1 with
      | none => none
      | some (k, r2) =>
        match mpDiscardOne r2 with
        | none => none
        | some r3 =>
          match wireKeysLoop n r3 with
          | none => none
          | some ks => some (k :: ks)

def wireKeys (bs : List Nat) : Option (List (List Nat)) :=
  match mpExpectMap bs with
  | none => none
  | some (n, r) => wireKeysLoop n r

structure WireEntry where
  keyEnc : List Nat
  key : List Nat
  valEnc : List Nat

def entryBytes (e : WireEntry) : List Nat := e.keyEnc ++ e.valEnc

def entriesBytes (es : List WireEntry) : List Nat := (es.map entryBytes).flatten

/-- A wire map: header with the entry count, then the entries. -/

def mapBytes (es : List WireEntry) : List Nat :=
  mapHdr es.length ++ entriesBytes es

/-- Entry-level effect of one iteration of the decode loop. -/

def stepEntry (t : TagData) (e : WireEntry) : TagData :=
  match find_field_handler e.key with
  | none => t
  | some f =>
    match applyHandler f t e.valEnc with
    | .ok p => p.1
    | .error _ => t

/-- A well-formed entry: its encoded key parses to `key` and its value is
processed successfully by the decode loop (by the field handler when the
key is known, by the generic discard otherwise). -/

def EntryOK (e : WireEntry) : Prop :=
  (∀ r, mpExpectStrLen (e.keyEnc ++ r) = some (e.key.length, e.key ++ r)) ∧
  (match find_field_handler e.key with
   | some f => ∀ t r, applyHandler f t (e.valEnc ++ r) = .ok (stepEntry t e, r)
   | none => IsValue e.valEnc)

/-- A skippable entry: its key parses and its value is a well-formed
value for the discard machine (holds for every entry an encoder emits). -/

def EntrySkipOK (e : WireEntry) : Prop :=
  (∀ r, mpExpectStrLen (e.keyEnc ++ r) = some (e.key.length, e.key ++ r)) ∧
  IsValue e.valEnc

def knownKeyNames : List (List Nat) :=
  [keyAlbum, keyAlbumArtist, keyArtist, keyBitrate, keyBpm, keyChannels,
   keyComment, keyComposer, keyDisc, keyGenre, keyLength, keyLengthMs,
   keySampleRate, keyTitle, keyTrack, keyYear]

def encEntries (t : TagData) : List WireEntry :=
  [⟨strEnc keyTitle, keyTitle, strEnc t.title⟩,
   ⟨strEnc keyArtist, keyArtist, strEnc t.artist⟩,
   ⟨strEnc keyAlbum, keyAlbum, strEnc t.album⟩,
   ⟨strEnc keyYear, keyYear, uintEnc t.year⟩,
   ⟨strEnc keyTrack, keyTrack, uintEnc t.track⟩,
   ⟨strEnc keyGenre, keyGenre, strEnc t.genre⟩,
   ⟨strEnc keyComment, keyComment, strEnc t.comment⟩,
   ⟨strEnc keyAlbumArtist, keyAlbumArtist, strEnc t.albumArtist⟩,
   ⟨strEnc keyComposer, keyComposer, strEnc t.composer⟩,
   ⟨strEnc keyDisc, keyDisc, uintEnc t.disc⟩,
   ⟨strEnc keyBpm, keyBpm, uintEnc t.bpm⟩,
   ⟨strEnc keyBitrate, keyBitrate, uintEnc t.bitrate⟩,
   ⟨strEnc keySampleRate, keySampleRate, uintEnc t.sampleRate⟩,
   ⟨strEnc keyChannels, keyChannels, uintEnc t.channels⟩,
   ⟨strEnc keyLength, keyLength, uintEnc t.length⟩,
   ⟨strEnc keyLengthMs, keyLengthMs, uintEnc t.lengthMs⟩]

def WFStr (s : List Nat) : Prop :=
  s.length < 2 ^ 32 ∧ ∀ b ∈ s, 0 < b ∧ b < 256

/-- Well-formedness of a tag record: string fields are C strings and
numeric fields are `uint32_t` values. -/

def WFTag (t : TagData) : Prop :=
  WFStr t.title ∧ WFStr t.artist ∧ WFStr t.album ∧ WFStr t.genre ∧
  WFStr t.comment ∧ WFStr t.albumArtist ∧ WFStr t.composer ∧
  t.year < 2 ^ 32 ∧ t.track < 2 ^ 32 ∧ t.disc < 2 ^ 32 ∧ t.bpm < 2 ^ 32 ∧
  t.bitrate < 2 ^ 32 ∧ t.sampleRate < 2 ^ 32 ∧ t.channels < 2 ^ 32 ∧
  t.length < 2 ^ 32 ∧ t.lengthMs < 2 ^ 32

instance (s : List Nat) : Decidable (WFStr s) := by unfold WFStr; infer_instance

instance (t : TagData) : Decidable (WFTag t) := by unfold WFTag; infer_instance

/-- A sample record used by the concrete witnesses. -/

def sampleTag : TagData :=
  ⟨[84, 101, 115, 116], [65, 66], [], [], [], [], [],
   2024, 5, 0, 0, 320, 44100, 2, 180, 180000⟩

/-- C2: for any Tag Record whose seven string fields are C strings
(NUL-free UTF-8 byte sequences, empty allowed) and whose nine numeric
fields are in `[0, 2^32-1]`, decoding the bytes produced by `tags_encode`
succeeds and returns a record equal to the input:
`decode(encode(R)) = R`. -/

def fieldSel : TagField → TagData → List Nat ⊕ Nat
  | .title, t => .inl t.title
  | .artist, t => .inl t.artist
  | .album, t => .inl t.album
  | .genre, t => .inl t.genre
  | .comment, t => .inl t.comment
  | .albumArtist, t => .inl t.albumArtist
  | .composer, t => .inl t.composer
  | .year, t => .inr t.year
  | .track, t => .inr t.track
  | .disc, t => .inr t.disc
  | .bpm, t => .inr t.bpm
  | .bitrate, t => .inr t.bitrate
  | .sampleRate, t => .inr t.sampleRate
  | .channels, t => .inr t.channels
  | .length, t => .inr t.length
  | .lengthMs, t => .inr t.lengthMs

/-- A handler writes only its own field. -/

def tags_encode_bytes_spec_order (t : TagData) : List Nat :=
  let w := mpStartMap [] 16
  let w := mpWriteCstr w keyTitle
  let w := mpWriteCstr w t.title
  let w := mpWriteCstr w keyArtist
  let w := mpWriteCstr w t.artist
  let w := mpWriteCstr w keyAlbum
  let w := mpWriteCstr w t.album
  let w := mpWriteCstr w keyGenre
  let w := mpWriteCstr w t.genre
  let w := mpWriteCstr w keyComment
  let w := mpWriteCstr w t.comment
  let w := mpWriteCstr w keyAlbumArtist
  let w := mpWriteCstr w t.albumArtist
  let w := mpWriteCstr w keyComposer
  let w := mpWriteCstr w t.composer
  let w := mpWriteUint (mpWriteCstr w keyYear) t.year
  let w := mpWriteUint (mpWriteCstr w keyTrack) t.track
  let w := mpWriteUint (mpWriteCstr w keyDisc) t.disc
  let w := mpWriteUint (mpWriteCstr w keyBpm) t.bpm
  let w := mpWriteUint (mpWriteCstr w keyBitrate) t.bitrate
  let w := mpWriteUint (mpWriteCstr w keySampleRate) t.sampleRate
  let w := mpWriteUint (mpWriteCstr w keyChannels) t.channels
  let w := mpWriteUint (mpWriteCstr w keyLength) t.length
  let w := mpWriteUint (mpWriteCstr w keyLengthMs) t.lengthMs
  w

/-- The key order `tags_encode` actually writes. -/

def codeOrderKeys : List (List Nat) :=
  [keyTitle, keyArtist, keyAlbum, keyYear, keyTrack, keyGenre, keyComment,
   keyAlbumArtist, keyComposer, keyDisc, keyBpm, keyBitrate, keySampleRate,
   keyChannels, keyLength, keyLengthMs]

/-- The key order claimed by the spec (strings first, then integers). -/

def specOrderKeys : List (List Nat) :=
  [keyTitle, keyArtist, keyAlbum, keyGenre, keyComment, keyAlbumArtist,
   keyComposer, keyYear, keyTrack, keyDisc, keyBpm, keyBitrate,
   keySampleRate, keyChannels, keyLength, keyLengthMs]

/-- C1 (counterexample): for the all-empty record, the entries of the map
written by `tags_encode` do not appear in the order claimed by the spec
(seven strings first): the keys appear in the source order, which
interleaves `year` and `track` between the string fields, and the
produced bytes differ from a strings-first encoding. -/

def nulKey : List Nat := [97, 108, 98, 117, 109, 0, 120]

def nulEntry : WireEntry := ⟨strEnc nulKey, nulKey, strEnc [90, 90]⟩

def c7map1 : List Nat := mapBytes (encEntries zeroTagData ++ [nulEntry])

def c7map2 : List Nat := mapBytes (encEntries zeroTagData)

/-- C7 (counterexample): a well-formed map holding all 16 known keys plus
the unknown key `"album\x00x"` (an str value, not one of the sixteen
names) decodes successfully but NOT to the record obtained after
removing the unknown entry: the C-string comparison in
`find_field_handler` stops at the embedded NUL, dispatches the entry to
the `album` handler, and its value overwrites the album field. -/

def SIZE_MOD : Nat := 2 ^ 32

/-- Constant `tl_pool::LARGE_ALLOCATION_THRESHOLD` (1 MiB). -/

def LARGE_ALLOCATION_THRESHOLD : Nat := 1024 * 1024

/-- Rounding `size = (size + 63) & ~63` on 32-bit `size_t`: rounds up to a
multiple of 64 and wraps modulo `2^32` (clearing the low 6 bits of a
32-bit value is division then multiplication by 64). -/

def align64 (n : Nat) : Nat := (n + 63) % SIZE_MOD / 64 * 64

/-- A `MemoryBlock` of the pool: base address, capacity, bump cursor. -/

structure MemBlock where
  addr : Nat
  size : Nat
  used : Nat
deriving DecidableEq, Repr

/-- The observable state of a `tl_pool`: the block chain (in chain
order), the index of `current_block`, the tracked large allocations as
(address, size) pairs in push order, and the bookkeeping counters. -/

structure PoolState where
  blocks : List MemBlock
  curIdx : Option Nat
  largeAllocs : List (Nat × Nat)
  default_block_size : Nat
  total_allocated : Nat
  total_used : Nat
deriving DecidableEq, Repr

/-- Model of `tl_pool_create(initial_size)`; `addr` is the 64-byte-aligned address
`std::aligned_alloc` returns (allocation success is assumed; on failure
the C function returns NULL and no pool exists). -/

def tl_pool_create (initial_size addr : Nat) : PoolState :=
  ⟨[⟨addr, if initial_size = 0 then 16 * 1024 * 1024 else initial_size, 0⟩],
   some 0, [],
   if initial_size = 0 then 16 * 1024 * 1024 else initial_size,
   if initial_size = 0 then 16 * 1024 * 1024 else initial_size, 0⟩

def curBlock (p : PoolState) : Option MemBlock :=
  p.curIdx.bind fun i => p.blocks[i]?

/-- Condition `!block || block->used + size > block->size` for the rounded size. -/

def needNewBlock (p : PoolState) (size : Nat) : Bool :=
  match curBlock p with
  | none => true
  | some b => decide (b.used + size > b.size)

/-- Model of `tl_pool_alloc(pool, size0)`.  `sysAddr` is the address the system
allocator would return if this call allocates (`new uint8_t[...]` on the
large path, `aligned_alloc(64, ...)` for a fresh block); it is unused on
the bump path.  System-allocation success is assumed (on failure the C
function returns NULL with the pool unchanged).  The new-block branch
fuses the append of the fresh empty block with the bump allocation the C
code performs immediately afterwards. -/

def tl_pool_alloc (p : PoolState) (size0 sysAddr : Nat) : Option Nat × PoolState :=
  if size0 = 0 then (none, p)
  else if align64 size0 > LARGE_ALLOCATION_THRESHOLD then
    (some sysAddr,
     { p with
       largeAllocs := p.largeAllocs ++ [(sysAddr, align64 size0)],
       total_allocated := p.total_allocated + align64 size0,
       total_used := p.total_used + align64 size0 })
  else if needNewBlock p (align64 size0) then
    (some sysAddr,
     { p with
       blocks := p.blocks ++
         [⟨sysAddr, max p.default_block_size (align64 size0 * 2), align64 size0⟩],
       curIdx := some p.blocks.length,
       total_allocated :=
         p.total_allocated + max p.default_block_size (align64 size0 * 2),
       total_used := p.total_used + align64 size0 })
  else
    match p.blocks[p.curIdx.getD 0]? with
    | none => (none, p)
    | some b =>
      (some (b.addr + b.used),
       { p with
         blocks := p.blocks.set (p.curIdx.getD 0) ⟨b.addr, b.size, b.used + align64 size0⟩,
         total_used := p.total_used + align64 size0 })

/-- Model of `tl_pool_reset`: zero every block cursor, drop the large
allocations, rewind `current_block` to the first block. -/

def tl_pool_reset (p : PoolState) : PoolState :=
  { p with
    blocks := p.blocks.map fun b => ⟨b.addr, b.size, 0⟩,
    largeAllocs := [],
    curIdx := if p.blocks.isEmpty then none else some 0,
    total_used := 0 }

/-- Run a sequence of `tl_pool_alloc` calls; each trace element is
(requested size, supplied system address).  Results pair each returned
pointer with the size that was requested. -/

def runAllocs : PoolState → List (Nat × Nat) → PoolState × List (Option (Nat × Nat))
  | p, [] => (p, [])
  | p, (sz, a) :: rest =>
    ((runAllocs (tl_pool_alloc p sz a).2 rest).1,
     ((tl_pool_alloc p sz a).1.map fun ptr => (ptr, sz)) ::
       (runAllocs (tl_pool_alloc p sz a).2 rest).2)

/-- Two byte ranges (address, size) do not overlap. -/

def RangeDisj (x y : Nat × Nat) : Prop := x.1 + x.2 ≤ y.1 ∨ y.1 + y.2 ≤ x.1

instance (x y : Nat × Nat) : Decidable (RangeDisj x y) := by
  unfold RangeDisj; infer_instance

/-- A region disjoint from every region the pool currently owns (what a
correct system allocator guarantees for a fresh allocation). -/

def FreshRegion (p : PoolState) (a s : Nat) : Prop :=
  (∀ b ∈ p.blocks, RangeDisj (a, s) (b.addr, b.size)) ∧
  (∀ la ∈ p.largeAllocs, RangeDisj (a, s) la)

instance (p : PoolState) (a s : Nat) : Decidable (FreshRegion p a s) := by
  unfold FreshRegion; infer_instance

/-- Constraints the real system allocator satisfies for the supplied
address of one call: on the large path `operator new[]` returns a fresh
region with (at least) 16-byte alignment; on the new-block path
`aligned_alloc(64, ...)` returns a fresh 64-byte-aligned region.  Calls
that allocate nothing from the system constrain nothing. -/

def StepLegal (p : PoolState) (sz a : Nat) : Prop :=
  if sz = 0 then True
  else if align64 sz > LARGE_ALLOCATION_THRESHOLD then
    a % 16 = 0 ∧ FreshRegion p a (align64 sz)
  else if needNewBlock p (align64 sz) then
    a % 64 = 0 ∧ FreshRegion p a (max p.default_block_size (align64 sz * 2))
  else True

instance (p : PoolState) (sz a : Nat) : Decidable (StepLegal p sz a) := by
  unfold StepLegal; infer_instance

def LegalTrace : PoolState → List (Nat × Nat) → Prop
  | _, [] => True
  | p, (sz, a) :: rest =>
    StepLegal p sz a ∧ LegalTrace (tl_pool_alloc p sz a).2 rest

instance : ∀ (p : PoolState) (tr : List (Nat × Nat)), Decidable (LegalTrace p tr)
  | _, [] => by unfold LegalTrace; infer_instance
  | p, (sz, a) :: rest =>
    have : Decidable (LegalTrace (tl_pool_alloc p sz a).2 rest) :=
      instDecidableLegalTrace _ rest
    by unfold LegalTrace; infer_instance

/-- Structural invariant of a pool: block cursors within capacity,
64-byte alignment of block bases and cursors, and pairwise disjointness
of all owned regions. -/

def PoolInv (p : PoolState) : Prop :=
  (∀ b ∈ p.blocks, b.used ≤ b.size ∧ b.addr % 64 = 0 ∧ b.used % 64 = 0) ∧
  List.Pairwise (fun x y => RangeDisj (x.addr, x.size) (y.addr, y.size)) p.blocks ∧
  (∀ b ∈ p.blocks, ∀ la ∈ p.largeAllocs, RangeDisj (b.addr, b.size) la) ∧
  List.Pairwise RangeDisj p.largeAllocs

instance (p : PoolState) : Decidable (PoolInv p) := by
  unfold PoolInv; infer_instance

/-- A byte range handed out by the pool: inside the used front of some
block, or inside a tracked large allocation. -/

def Reserved (p : PoolState) (r : Nat × Nat) : Prop :=
  (∃ (i : Nat) (b : MemBlock), p.blocks[i]? = some b ∧ b.addr ≤ r.1 ∧ r.1 + r.2 ≤ b.addr + b.used) ∨
  (∃ la ∈ p.largeAllocs, la.1 ≤ r.1 ∧ r.1 + r.2 ≤ la.1 + la.2)

def align8 (n : Nat) : Nat := (n + 7) % SIZE_MOD / 8 * 8

/-- Loop `new_size = size * 2; while (new_size < need) new_size *= 2;` — 64
doublings always suffice for any starting size above zero and any need
representable here, so the fuel never runs out on the inputs modelled. -/

def arenaGrowLoop : Nat → Nat → Nat → Nat
  | 0, cur, _ => cur
  | f + 1, cur, need => if cur < need then arenaGrowLoop f (cur * 2) need else cur

def arenaGrow (oldSize need : Nat) : Nat := arenaGrowLoop 64 (oldSize * 2) need

/-- The lightweight decode `Arena` of `taglib_msgpack.h`: buffer base
address, capacity, cursor. -/

structure ArenaState where
  ptr : Nat
  size : Nat
  used : Nat
deriving DecidableEq, Repr

/-- Model of `arena_alloc(arena, size0)`.  On growth the buffer is `realloc`ed;
`reallocAddr` is the base address `realloc` returns — returning a
different address (moving the buffer) is legal allocator behaviour, and
passing the old address models in-place growth.  `realloc` success is
assumed (failure returns NULL with the arena unchanged). -/

def arena_alloc (a : ArenaState) (size0 reallocAddr : Nat) :
    Option Nat × ArenaState :=
  if a.used + align8 size0 > a.size then
    (some (reallocAddr + a.used),
     ⟨reallocAddr, arenaGrow a.size (a.used + align8 size0),
      a.used + align8 size0⟩)
  else
    (some (a.ptr + a.used), ⟨a.ptr, a.size, a.used + align8 size0⟩)

/-- Model of `arena_create(initial_size)` at a given malloc address. -/

def arena_create (initial_size addr : Nat) : ArenaState :=
  ⟨addr, initial_size, 0⟩

lemma mpSkip_exact {k : Nat} {xs ys : List Nat} (h : xs.length = k) :
    mpSkip k (xs ++ ys) = some ys := by
  subst h
  simp [mpSkip, List.drop_left]

lemma mpSkip_split {k : Nat} {bs r : List Nat} (h : mpSkip k bs = some r) :
    ∃ xs : List Nat, bs = xs ++ r ∧ xs.length = k := by
  unfold mpSkip at h
  split at h
  case isTrue hk =>
    injection h with h1
    subst h1
    refine ⟨bs.take k, (List.take_append_drop k bs).symm, ?_⟩
    simp only [List.length_take]
    omega
  case isFalse => cases h

lemma rdBE_exact {k : Nat} {xs ys : List Nat} (h : xs.length = k) :
    rdBE k (xs ++ ys) = some (beVal xs, ys) := by
  subst h
  simp [rdBE, beVal, List.take_left, List.drop_left]

lemma rdBE_split {k : Nat} {bs : List Nat} {v : Nat} {r : List Nat}
    (h : rdBE k bs = some (v, r)) :
    ∃ xs : List Nat, bs = xs ++ r ∧ xs.length = k ∧ v = beVal xs := by
  unfold rdBE at h
  split at h
  case isTrue hk =>
    simp only [Option.some.injEq, Prod.mk.injEq] at h
    obtain ⟨hv, hr⟩ := h
    subst hr
    refine ⟨bs.take k, (List.take_append_drop k bs).symm, ?_, hv.symm⟩
    simp only [List.length_take]
    omega
  case isFalse => cases h

/-- The discard machine touches only the part of the buffer it consumes:
a successful run determines a consumed front segment, and on any buffer
with the same front segment (and at least as much fuel) it succeeds,
returning exactly the attached tail. -/

lemma mpDiscardN_frame :
    ∀ fuel c bs r, mpDiscardN fuel c bs = some r →
      ∃ p, bs = p ++ r ∧
        ∀ fuel2 r2, fuel ≤ fuel2 → mpDiscardN fuel2 c (p ++ r2) = some r2 := by
  intro fuel
  induction fuel with
  | zero =>
    intro c bs r h
    match c with
    | 0 =>
      simp only [mpDiscardN, Option.some.injEq] at h
      subst h
      exact ⟨[], rfl, fun fuel2 r2 _ => by simp [mpDiscardN]⟩
    | c + 1 => simp [mpDiscardN] at h
  | succ fuel ih =>
    intro c bs r h
    match c with
    | 0 =>
      simp only [mpDiscardN, Option.some.injEq] at h
      subst h
      exact ⟨[], rfl, fun fuel2 r2 _ => by simp [mpDiscardN]⟩
    | c + 1 =>
      match bs with
      | [] => simp [mpDiscardN] at h
      | b :: rest =>
        cases hshape : tagShape b with
        | plain k =>
          simp only [mpDiscardN, hshape] at h
          rcases hskip : mpSkip k rest with _ | r2
          · simp only [hskip] at h
            exact Option.noConfusion h
          · simp only [hskip] at h
            obtain ⟨xs, hxs, hlen⟩ := mpSkip_split hskip
            obtain ⟨p, hp, hreplay⟩ := ih c r2 r h
            subst hxs hp
            refine ⟨b :: (xs ++ p), by simp, ?_⟩
            intro fuel2 r2' hf
            obtain ⟨f2, rfl⟩ : ∃ f2, fuel2 = f2 + 1 := ⟨fuel2 - 1, by omega⟩
            simp only [List.cons_append, List.append_assoc, mpDiscardN, hshape,
              mpSkip_exact hlen]
            exact hreplay f2 r2' (by omega)
        | lenPre k =>
          simp only [mpDiscardN, hshape] at h
          rcases hrd : rdBE k rest with _ | ⟨l, r1⟩
          · simp only [hrd] at h
            exact Option.noConfusion h
          · simp only [hrd] at h
            obtain ⟨xs, hxs, hlen1, hval⟩ := rdBE_split hrd
            rcases hskip : mpSkip l r1 with _ | r2
            · simp only [hskip] at h
              exact Option.noConfusion h
            · simp only [hskip] at h
              obtain ⟨ys, hys, hlen2⟩ := mpSkip_split hskip
              obtain ⟨p, hp, hreplay⟩ := ih c r2 r h
              subst hval hxs hys hp
              refine ⟨b :: (xs ++ (ys ++ p)), by simp, ?_⟩
              intro fuel2 r2' hf
              obtain ⟨f2, rfl⟩ : ∃ f2, fuel2 = f2 + 1 := ⟨fuel2 - 1, by omega⟩
              simp only [List.cons_append, List.append_assoc, mpDiscardN, hshape,
                rdBE_exact hlen1, mpSkip_exact hlen2]
              exact hreplay f2 r2' (by omega)
        | container k =>
          simp only [mpDiscardN, hshape] at h
          rcases hin : mpDiscardN fuel k rest with _ | r1
          · simp only [hin] at h
            exact Option.noConfusion h
          · simp only [hin] at h
            obtain ⟨p1, hp1, hrep1⟩ := ih k rest r1 hin
            obtain ⟨p2, hp2, hrep2⟩ := ih c r1 r h
            subst hp1 hp2
            refine ⟨b :: (p1 ++ p2), by simp, ?_⟩
            intro fuel2 r2' hf
            obtain ⟨f2, rfl⟩ : ∃ f2, fuel2 = f2 + 1 := ⟨fuel2 - 1, by omega⟩
            simp only [List.cons_append, List.append_assoc, mpDiscardN, hshape,
              hrep1 f2 (p2 ++ r2') (by omega : fuel ≤ f2)]
            exact hrep2 f2 r2' (by omega)
        | lenContainer k m =>
          simp only [mpDiscardN, hshape] at h
          rcases hrd : rdBE k rest with _ | ⟨l, r1⟩
          · simp only [hrd] at h
            exact Option.noConfusion h
          · simp only [hrd] at h
            obtain ⟨xs, hxs, hlen1, hval⟩ := rdBE_split hrd
            rcases hin : mpDiscardN fuel (m * l) r1 with _ | r2
            · simp only [hin] at h
              exact Option.noConfusion h
            · simp only [hin] at h
              obtain ⟨p1, hp1, hrep1⟩ := ih (m * l) r1 r2 hin
              obtain ⟨p2, hp2, hrep2⟩ := ih c r2 r h
              subst hval hxs hp1 hp2
              refine ⟨b :: (xs ++ (p1 ++ p2)), by simp, ?_⟩
              intro fuel2 r2' hf
              obtain ⟨f2, rfl⟩ : ∃ f2, fuel2 = f2 + 1 := ⟨fuel2 - 1, by omega⟩
              simp only [List.cons_append, List.append_assoc, mpDiscardN, hshape,
                rdBE_exact hlen1,
                hrep1 f2 (p2 ++ r2') (by omega : fuel ≤ f2)]
              exact hrep2 f2 r2' (by omega)
        | bad =>
          simp only [mpDiscardN, hshape] at h
          exact Option.noConfusion h

/-- Tag data structure from `taglib_msgpack.h` (`TagData`).  String fields
are C strings: NUL-free byte lists, with a NULL pointer modelled as `[]`
(the codec treats NULL and `""` identically).  Numeric fields are
`uint32_t` values. -/

lemma beBytes_length (k n : Nat) : (beBytes k n).length = k := by
  induction k generalizing n with
  | zero => rfl
  | succ k ih => simp [beBytes, ih]

lemma beVal_beBytes {k n : Nat} (h : n < 256 ^ k) : beVal (beBytes k n) = n := by
  induction k generalizing n with
  | zero =>
    simp only [Nat.pow_zero, Nat.lt_one_iff] at h
    simp [beBytes, beVal, h]
  | succ k ih =>
    have hdiv : n / 256 < 256 ^ k := by
      rw [Nat.div_lt_iff_lt_mul (by norm_num : 0 < 256)]
      calc n < 256 ^ (k + 1) := h
        _ = 256 ^ k * 256 := by ring
    simp only [beBytes, beVal, List.foldl_append]
    have := ih hdiv
    simp only [beVal] at this
    simp [this]
    omega

lemma rdBE_beBytes {k n : Nat} (h : n < 256 ^ k) (r : List Nat) :
    rdBE k (beBytes k n ++ r) = some (n, r) := by
  rw [rdBE_exact (beBytes_length k n), beVal_beBytes h]

lemma mpExpectMap_mapHdr {n : Nat} (h : n < 2 ^ 32) (r : List Nat) :
    mpExpectMap (mapHdr n ++ r) = some (n, r) := by
  unfold mapHdr
  split
  case isTrue h15 =>
    simp only [List.cons_append, List.nil_append, mpExpectMap]
    rw [if_pos ⟨by omega, by omega⟩]
    have hn : 128 + n - 128 = n := by omega
    rw [hn]
  case isFalse h15 =>
    split
    case isTrue h16 =>
      simp only [List.cons_append, List.append_assoc, List.nil_append, mpExpectMap]
      norm_num
      exact rdBE_beBytes (by norm_num; omega) r
    case isFalse h16 =>
      simp only [List.cons_append, List.append_assoc, List.nil_append, mpExpectMap]
      norm_num
      exact rdBE_beBytes (by norm_num; omega) r

lemma mpExpectStrLen_strHdr {n : Nat} (h : n < 2 ^ 32) (r : List Nat) :
    mpExpectStrLen (strHdr n ++ r) = some (n, r) := by
  unfold strHdr
  split
  case isTrue h31 =>
    simp only [List.cons_append, List.nil_append, mpExpectStrLen]
    rw [if_pos ⟨by omega, by omega⟩]
    have hn : 160 + n - 160 = n := by omega
    rw [hn]
  case isFalse h31 =>
    split
    case isTrue h8 =>
      simp only [List.cons_append, List.nil_append, mpExpectStrLen]
      norm_num
      have : rdBE 1 ([n] ++ r) = some (beVal [n], r) := rdBE_exact rfl
      simpa [beVal] using this
    case isFalse h8 =>
      split
      case isTrue h16 =>
        simp only [List.cons_append, List.append_assoc, List.nil_append, mpExpectStrLen]
        norm_num
        exact rdBE_beBytes (by norm_num; omega) r
      case isFalse h16 =>
        simp only [List.cons_append, List.append_assoc, List.nil_append, mpExpectStrLen]
        norm_num
        exact rdBE_beBytes (by norm_num; omega) r

lemma mpExpectStrLen_strEnc {s : List Nat} (h : s.length < 2 ^ 32) (r : List Nat) :
    mpExpectStrLen (strEnc s ++ r) = some (s.length, s ++ r) := by
  rw [strEnc, List.append_assoc]
  exact mpExpectStrLen_strHdr h (s ++ r)

lemma mpReadBytes_exact {n : Nat} {xs ys : List Nat} (h : xs.length = n) :
    mpReadBytes n (xs ++ ys) = some (xs, ys) := by
  subst h
  simp [mpReadBytes, List.take_left, List.drop_left]

lemma mpExpectUint32_uintEnc {n : Nat} (h : n < 2 ^ 32) (r : List Nat) :
    mpExpectUint32 (uintEnc n ++ r) = some (n, r) := by
  unfold uintEnc
  split
  case isTrue h7 =>
    simp only [List.cons_append, List.nil_append, mpExpectUint32]
    rw [if_pos (by omega)]
  case isFalse h7 =>
    split
    case isTrue h8 =>
      simp only [List.cons_append, List.nil_append, mpExpectUint32]
      norm_num
      have : rdBE 1 ([n] ++ r) = some (beVal [n], r) := rdBE_exact rfl
      simpa [beVal] using this
    case isFalse h8 =>
      split
      case isTrue h16 =>
        simp only [List.cons_append, List.append_assoc, List.nil_append, mpExpectUint32]
        norm_num
        exact rdBE_beBytes (by norm_num; omega) r
      case isFalse h16 =>
        split
        case isTrue h32 =>
          simp only [List.cons_append, List.append_assoc, List.nil_append, mpExpectUint32]
          norm_num
          exact rdBE_beBytes (by norm_num; omega) r
        case isFalse h32 => omega

lemma mpSkip_all (s : List Nat) : mpSkip s.length s = some [] := by
  simpa using @mpSkip_exact s.length s [] rfl

lemma mpDiscardN_zero (fuel : Nat) (bs : List Nat) :
    mpDiscardN fuel 0 bs = some bs := by
  cases fuel <;> rfl

/-- One discard step on a `plain` tag, stated with explicit fuel and
count equations so that it rewrites against any arithmetic form. -/

lemma mpDiscardN_step_plain (fuel1 c1 : Nat) {fuel c b k : Nat}
    {bs r rr : List Nat} (hf : fuel = fuel1 + 1) (hc : c = c1 + 1)
    (hbs : bs = b :: r) (hts : tagShape b = .plain k)
    (hsk : mpSkip k r = some rr) :
    mpDiscardN fuel c bs = mpDiscardN fuel1 c1 rr := by
  subst hf hc hbs
  simp only [mpDiscardN, hts, hsk]

/-- One discard step on a `lenPre` tag. -/

lemma mpDiscardN_step_lenPre (fuel1 c1 : Nat) {fuel c b k l : Nat}
    {bs r r1 rr : List Nat} (hf : fuel = fuel1 + 1) (hc : c = c1 + 1)
    (hbs : bs = b :: r) (hts : tagShape b = .lenPre k)
    (hrd : rdBE k r = some (l, r1)) (hsk : mpSkip l r1 = some rr) :
    mpDiscardN fuel c bs = mpDiscardN fuel1 c1 rr := by
  subst hf hc hbs
  simp only [mpDiscardN, hts, hrd, hsk]

/-- A well-formed value embedded at the front of a larger buffer is
discarded exactly, for any sufficient fuel. -/

lemma isValue_run {v : List Nat} (hv : IsValue v) {fuel : Nat}
    (hf : v.length + 2 ≤ fuel) (r : List Nat) :
    mpDiscardN fuel 1 (v ++ r) = some r := by
  obtain ⟨p, hp, hreplay⟩ := mpDiscardN_frame _ _ _ _ hv
  rw [List.append_nil] at hp
  subst hp
  exact hreplay fuel r hf

lemma IsValue_strEnc {s : List Nat} (h : s.length < 2 ^ 32) :
    IsValue (strEnc s) := by
  unfold IsValue strEnc strHdr
  split
  case isTrue h31 =>
    have hts : tagShape (0xa0 + s.length) = .plain s.length := by
      unfold tagShape
      rw [if_neg (by omega), if_neg (by omega), if_neg (by omega),
        if_pos (by omega)]
      congr 1
      omega
    rw [mpDiscardN_step_plain (s.length + 2) 0
      (by simp <;> omega) rfl (by simp) hts (mpSkip_all s), mpDiscardN_zero]
  case isFalse h31 =>
    split
    case isTrue h8 =>
      have hts : tagShape 0xd9 = .lenPre 1 := by decide
      have hrd : rdBE 1 ([s.length] ++ s) = some (beVal [s.length], s) :=
        rdBE_exact rfl
      simp only [beVal, List.foldl, Nat.zero_mul, Nat.zero_add,
        List.singleton_append] at hrd
      rw [mpDiscardN_step_lenPre (s.length + 3) 0
        (by simp <;> omega) rfl (by simp) hts hrd (mpSkip_all s), mpDiscardN_zero]
    case isFalse h8 =>
      split
      case isTrue h16 =>
        have hts : tagShape 0xda = .lenPre 2 := by decide
        have hrd : rdBE 2 (beBytes 2 s.length ++ s) = some (s.length, s) :=
          rdBE_beBytes (by norm_num; omega) s
        rw [mpDiscardN_step_lenPre (s.length + 4) 0
          (by simp [beBytes_length] <;> omega) rfl (by simp) hts hrd
          (mpSkip_all s), mpDiscardN_zero]
      case isFalse h16 =>
        have hts : tagShape 0xdb = .lenPre 4 := by decide
        have hrd : rdBE 4 (beBytes 4 s.length ++ s) = some (s.length, s) :=
          rdBE_beBytes (by norm_num; omega) s
        rw [mpDiscardN_step_lenPre (s.length + 6) 0
          (by simp [beBytes_length] <;> omega) rfl (by simp) hts hrd
          (mpSkip_all s), mpDiscardN_zero]

lemma IsValue_uintEnc (n : Nat) : IsValue (uintEnc n) := by
  unfold IsValue uintEnc
  split
  case isTrue h7 =>
    have hts : tagShape n = .plain 0 := by
      unfold tagShape
      rw [if_pos (by omega)]
    rw [mpDiscardN_step_plain 2 0 (by simp) rfl rfl hts (mpSkip_all []),
      mpDiscardN_zero]
  case isFalse h7 =>
    split
    case isTrue h8 =>
      have hts : tagShape 0xcc = .plain 1 := by decide
      rw [mpDiscardN_step_plain 3 0 (by simp) rfl rfl hts (mpSkip_all [n]),
        mpDiscardN_zero]
    case isFalse h8 =>
      split
      case isTrue h16 =>
        have hts : tagShape 0xcd = .plain 2 := by decide
        have hsk : mpSkip 2 (beBytes 2 n) = some [] := by
          have := mpSkip_all (beBytes 2 n)
          rwa [beBytes_length] at this
        rw [mpDiscardN_step_plain 4 0 (by simp [beBytes_length]) rfl
          (by simp) hts hsk, mpDiscardN_zero]
      case isFalse h16 =>
        split
        case isTrue h32 =>
          have hts : tagShape 0xce = .plain 4 := by decide
          have hsk : mpSkip 4 (beBytes 4 n) = some [] := by
            have := mpSkip_all (beBytes 4 n)
            rwa [beBytes_length] at this
          rw [mpDiscardN_step_plain 6 0 (by simp [beBytes_length]) rfl
            (by simp) hts hsk, mpDiscardN_zero]
        case isFalse h32 =>
          have hts : tagShape 0xcf = .plain 8 := by decide
          have hsk : mpSkip 8 (beBytes 8 n) = some [] := by
            have := mpSkip_all (beBytes 8 n)
            rwa [beBytes_length] at this
          rw [mpDiscardN_step_plain 10 0 (by simp [beBytes_length]) rfl
            (by simp) hts hsk, mpDiscardN_zero]

/-- One wire map entry: the encoded key, the key bytes it parses to, and
the encoded value. -/

lemma mpDiscardOne_value {v r : List Nat} (hv : IsValue v) :
    mpDiscardOne (v ++ r) = some r := by
  unfold mpDiscardOne
  exact isValue_run hv (by simp <;> omega) r

/-- Running the decode loop over the bytes of a list of well-formed
entries folds `stepEntry` over them and stops exactly at the tail. -/

lemma decodeLoop_entries :
    ∀ es (t : TagData) (tail : List Nat), (∀ e ∈ es, EntryOK e) →
      decodeLoop es.length t (entriesBytes es ++ tail) =
        .ok (es.foldl stepEntry t, tail) := by
  intro es
  induction es with
  | nil =>
    intro t tail _
    simp [decodeLoop, entriesBytes]
  | cons e es ih =>
    intro t tail hok
    obtain ⟨hkey, hval⟩ := hok e (List.mem_cons_self e es)
    have hes : ∀ x ∈ es, EntryOK x := fun x hx => hok x (List.mem_cons_of_mem e hx)
    simp only [entriesBytes, List.map_cons, List.flatten_cons, entryBytes,
      List.append_assoc, List.length_cons]
    simp only [decodeLoop, hkey, mpReadBytes_exact (rfl : e.key.length = e.key.length)]
    rcases hf : find_field_handler e.key with _ | f
    · simp only [hf] at hval ⊢
      simp only [mpDiscardOne_value hval]
      have := ih t tail hes
      simp only [entriesBytes] at this
      rw [this]
      simp only [List.foldl_cons]
      congr 1
      unfold stepEntry
      rw [hf]
    · simp only [hf] at hval ⊢
      simp only [hval]
      have := ih (stepEntry t e) tail hes
      simp only [entriesBytes] at this
      rw [this]
      simp only [List.foldl_cons]

/-- Decoding: `tags_decode_core` on a well-formed wire map is the entry fold. -/

lemma tags_decode_core_mapBytes {es : List WireEntry}
    (hlen : es.length < 2 ^ 32) (hok : ∀ e ∈ es, EntryOK e) :
    tags_decode_core (mapBytes es) = .ok (es.foldl stepEntry zeroTagData) := by
  unfold tags_decode_core mapBytes
  rw [mpExpectMap_mapHdr hlen]
  have := decodeLoop_entries es zeroTagData [] hok
  rw [List.append_nil] at this
  simp only [this]

/-- Key extraction over the bytes of skippable entries lists the keys in
entry order. -/

lemma wireKeysLoop_entries :
    ∀ es (tail : List Nat), (∀ e ∈ es, EntrySkipOK e) →
      wireKeysLoop es.length (entriesBytes es ++ tail) =
        some (es.map (fun e => e.key)) := by
  intro es
  induction es with
  | nil =>
    intro tail _
    simp [wireKeysLoop]
  | cons e es ih =>
    intro tail hok
    obtain ⟨hkey, hval⟩ := hok e (List.mem_cons_self e es)
    have hes : ∀ x ∈ es, EntrySkipOK x := fun x hx => hok x (List.mem_cons_of_mem e hx)
    simp only [entriesBytes, List.map_cons, List.flatten_cons, entryBytes,
      List.append_assoc, List.length_cons]
    simp only [wireKeysLoop, hkey,
      mpReadBytes_exact (rfl : e.key.length = e.key.length)]
    simp only [mpDiscardOne_value hval]
    have := ih tail hes
    simp only [entriesBytes] at this
    rw [this]

lemma wireKeys_mapBytes {es : List WireEntry} (hlen : es.length < 2 ^ 32)
    (hok : ∀ e ∈ es, EntrySkipOK e) :
    wireKeys (mapBytes es) = some (es.map (fun e => e.key)) := by
  unfold wireKeys mapBytes
  rw [mpExpectMap_mapHdr hlen]
  have := wireKeysLoop_entries es [] hok
  rw [List.append_nil] at this
  simp only [this]

lemma strcmpB_eq_zero :
    ∀ {a b : List Nat}, (∀ x ∈ a, x ≠ 0) → (∀ x ∈ b, x ≠ 0) →
      strcmpB a b = 0 → a = b := by
  intro a
  induction a with
  | nil =>
    intro b _ hb h
    cases b with
    | nil => rfl
    | cons y ys =>
      exfalso
      simp only [strcmpB] at h
      have := hb y (List.mem_cons_self y ys)
      omega
  | cons x xs ih =>
    intro b hx hb h
    cases b with
    | nil =>
      exfalso
      simp only [strcmpB] at h
      have := hx x (List.mem_cons_self x xs)
      omega
    | cons y ys =>
      simp only [strcmpB] at h
      by_cases hxy : x = y
      · subst hxy
        rw [if_pos rfl] at h
        have := ih (fun z hz => hx z (List.mem_cons_of_mem x hz))
          (fun z hz => hb z (List.mem_cons_of_mem x hz)) h
        rw [this]
      · rw [if_neg hxy] at h
        exfalso
        have : (x : Int) = (y : Int) := by omega
        exact hxy (by exact_mod_cast this)

/-- The handler table, in table order (used to state key membership). -/

lemma tableKey_mem (i : Nat) : tableKey i ∈ knownKeyNames := by
  unfold tableKey
  split <;> decide

lemma tableKey_nonzero (i : Nat) : ∀ b ∈ tableKey i, b ≠ 0 := by
  unfold tableKey
  split <;> decide

/-- Soundness of the binary search: it only ever answers with a table
entry whose key compares equal to the probe. -/

lemma fhSearch_sound :
    ∀ (fuel : Nat) (key : List Nat) (l r : Int) (f : TagField),
      fhSearch key fuel l r = some f →
      ∃ i : Nat, strcmpB key (tableKey i) = 0 ∧ tableField i = f := by
  intro fuel
  induction fuel with
  | zero =>
    intro key l r f h
    simp [fhSearch] at h
  | succ fuel ih =>
    intro key l r f h
    simp only [fhSearch] at h
    split at h
    case isFalse => exact Option.noConfusion h
    case isTrue hlr =>
      split at h
      case isTrue hc =>
        injection h with h1
        exact ⟨(l + (r - l) / 2).toNat, hc, h1⟩
      case isFalse hc =>
        split at h
        case isTrue => exact ih key l ((l + (r - l) / 2) - 1) f h
        case isFalse => exact ih key ((l + (r - l) / 2) + 1) r f h

/-- A NUL-free key that is not one of the sixteen field names finds no
handler. -/

lemma find_field_handler_none {k : List Nat} (h0 : ∀ b ∈ k, b ≠ 0)
    (hk : k ∉ knownKeyNames) : find_field_handler k = none := by
  unfold find_field_handler
  have htw : k.takeWhile (fun b => b ≠ 0) = k := by
    rw [List.takeWhile_eq_self_iff]
    intro x hx
    simp [h0 x hx]
  rw [htw]
  rcases h : fhSearch k 17 0 15 with _ | f
  · rfl
  · exfalso
    obtain ⟨i, hcmp, _⟩ := fhSearch_sound 17 k 0 15 f h
    have hki := strcmpB_eq_zero h0 (tableKey_nonzero i) hcmp
    exact hk (hki ▸ tableKey_mem i)

/-- Builds the `EntryOK` fact and the `stepEntry` equation for an entry
carrying a string value dispatched to a string-field handler. -/

lemma entryOK_str (kb : List Nat) (f : TagField) (upd : TagData → List Nat → TagData)
    (s : List Nat) (hklen : kb.length < 2 ^ 32) (hslen : s.length < 2 ^ 32)
    (hf : find_field_handler kb = some f)
    (happ : ∀ t bs, applyHandler f t bs =
      (decode_string_field bs).map fun p => (upd t p.1, p.2)) :
    EntryOK ⟨strEnc kb, kb, strEnc s⟩ ∧
      ∀ t, stepEntry t ⟨strEnc kb, kb, strEnc s⟩ = upd t s := by
  have hds : ∀ r, decode_string_field (strEnc s ++ r) = .ok (s, r) := by
    intro r
    unfold decode_string_field
    simp only [mpExpectStrLen_strEnc hslen,
      mpReadBytes_exact (rfl : s.length = s.length)]
  have happly : ∀ t r, applyHandler f t (strEnc s ++ r) = .ok (upd t s, r) := by
    intro t r
    rw [happ, hds]
    rfl
  have hstep : ∀ t, stepEntry t ⟨strEnc kb, kb, strEnc s⟩ = upd t s := by
    intro t
    unfold stepEntry
    have h2 := happly t []
    rw [List.append_nil] at h2
    simp only [hf, h2]
  refine ⟨⟨fun r => mpExpectStrLen_strEnc hklen r, ?_⟩, hstep⟩
  simp only [hf]
  intro t r
  rw [happly t r, hstep t]

/-- Builds the `EntryOK` fact and the `stepEntry` equation for an entry
carrying an unsigned-integer value dispatched to a numeric handler. -/

lemma entryOK_uint (kb : List Nat) (f : TagField) (upd : TagData → Nat → TagData)
    (n : Nat) (hklen : kb.length < 2 ^ 32) (hn : n < 2 ^ 32)
    (hf : find_field_handler kb = some f)
    (happ : ∀ t bs, applyHandler f t bs =
      match mpExpectUint32 bs with
      | none => .error MP_ERR_TYPE
      | some (v, r) => .ok (upd t v, r)) :
    EntryOK ⟨strEnc kb, kb, uintEnc n⟩ ∧
      ∀ t, stepEntry t ⟨strEnc kb, kb, uintEnc n⟩ = upd t n := by
  have happly : ∀ t r, applyHandler f t (uintEnc n ++ r) = .ok (upd t n, r) := by
    intro t r
    rw [happ]
    simp only [mpExpectUint32_uintEnc hn]
  have hstep : ∀ t, stepEntry t ⟨strEnc kb, kb, uintEnc n⟩ = upd t n := by
    intro t
    unfold stepEntry
    have h2 := happly t []
    rw [List.append_nil] at h2
    simp only [hf, h2]
  refine ⟨⟨fun r => mpExpectStrLen_strEnc hklen r, ?_⟩, hstep⟩
  simp only [hf]
  intro t r
  rw [happly t r, hstep t]

/-- An entry whose key finds no handler and whose value is well formed. -/

lemma entryOK_unknown (e : WireEntry)
    (hkey : ∀ r, mpExpectStrLen (e.keyEnc ++ r) = some (e.key.length, e.key ++ r))
    (hf : find_field_handler e.key = none) (hv : IsValue e.valEnc) :
    EntryOK e ∧ ∀ t, stepEntry t e = t := by
  constructor
  · exact ⟨hkey, by simp only [hf]; exact hv⟩
  · intro t
    unfold stepEntry
    simp only [hf]

-- The sixteen dispatch computations, one per field name.

lemma ffh_title : find_field_handler keyTitle = some .title := by decide

lemma ffh_artist : find_field_handler keyArtist = some .artist := by decide

lemma ffh_album : find_field_handler keyAlbum = some .album := by decide

lemma ffh_genre : find_field_handler keyGenre = some .genre := by decide

lemma ffh_comment : find_field_handler keyComment = some .comment := by decide

lemma ffh_albumArtist : find_field_handler keyAlbumArtist = some .albumArtist := by decide

lemma ffh_composer : find_field_handler keyComposer = some .composer := by decide

lemma ffh_year : find_field_handler keyYear = some .year := by decide

lemma ffh_track : find_field_handler keyTrack = some .track := by decide

lemma ffh_disc : find_field_handler keyDisc = some .disc := by decide

lemma ffh_bpm : find_field_handler keyBpm = some .bpm := by decide

lemma ffh_bitrate : find_field_handler keyBitrate = some .bitrate := by decide

lemma ffh_sampleRate : find_field_handler keySampleRate = some .sampleRate := by decide

lemma ffh_channels : find_field_handler keyChannels = some .channels := by decide

lemma ffh_length : find_field_handler keyLength = some .length := by decide

lemma ffh_lengthMs : find_field_handler keyLengthMs = some .lengthMs := by decide

/-- The encoder output, entry by entry, in the order of the write calls
in `tags_encode`. -/

lemma tags_encode_bytes_eq_mapBytes (t : TagData) :
    tags_encode_bytes t = mapBytes (encEntries t) := by
  simp [tags_encode_bytes, mapBytes, encEntries, entriesBytes, entryBytes,
    mpStartMap, mpWriteCstr, mpWriteUint]

/-- Well-formedness of a C string field: NUL-free bytes, below 256, and
a length representable in a MessagePack str. -/

theorem C2_roundtrip (t : TagData) (h : WFTag t) :
    tags_decode (tags_encode_bytes t) none = (MP_OK, some t) := by
  obtain ⟨ht, ha, hal, hg, hc, haa, hcm, hy, htr, hd, hb, hbr, hsr, hch, hl, hlm⟩ := h
  have e1 := entryOK_str keyTitle .title (fun x s => { x with title := s })
    t.title (by decide) ht.1 ffh_title (fun _ _ => rfl)
  have e2 := entryOK_str keyArtist .artist (fun x s => { x with artist := s })
    t.artist (by decide) ha.1 ffh_artist (fun _ _ => rfl)
  have e3 := entryOK_str keyAlbum .album (fun x s => { x with album := s })
    t.album (by decide) hal.1 ffh_album (fun _ _ => rfl)
  have e4 := entryOK_uint keyYear .year (fun x v => { x with year := v })
    t.year (by decide) hy ffh_year (fun _ _ => rfl)
  have e5 := entryOK_uint keyTrack .track (fun x v => { x with track := v })
    t.track (by decide) htr ffh_track (fun _ _ => rfl)
  have e6 := entryOK_str keyGenre .genre (fun x s => { x with genre := s })
    t.genre (by decide) hg.1 ffh_genre (fun _ _ => rfl)
  have e7 := entryOK_str keyComment .comment (fun x s => { x with comment := s })
    t.comment (by decide) hc.1 ffh_comment (fun _ _ => rfl)
  have e8 := entryOK_str keyAlbumArtist .albumArtist
    (fun x s => { x with albumArtist := s }) t.albumArtist (by decide) haa.1
    ffh_albumArtist (fun _ _ => rfl)
  have e9 := entryOK_str keyComposer .composer (fun x s => { x with composer := s })
    t.composer (by decide) hcm.1 ffh_composer (fun _ _ => rfl)
  have e10 := entryOK_uint keyDisc .disc (fun x v => { x with disc := v })
    t.disc (by decide) hd ffh_disc (fun _ _ => rfl)
  have e11 := entryOK_uint keyBpm .bpm (fun x v => { x with bpm := v })
    t.bpm (by decide) hb ffh_bpm (fun _ _ => rfl)
  have e12 := entryOK_uint keyBitrate .bitrate (fun x v => { x with bitrate := v })
    t.bitrate (by decide) hbr ffh_bitrate (fun _ _ => rfl)
  have e13 := entryOK_uint keySampleRate .sampleRate
    (fun x v => { x with sampleRate := v }) t.sampleRate (by decide) hsr
    ffh_sampleRate (fun _ _ => rfl)
  have e14 := entryOK_uint keyChannels .channels (fun x v => { x with channels := v })
    t.channels (by decide) hch ffh_channels (fun _ _ => rfl)
  have e15 := entryOK_uint keyLength .length (fun x v => { x with length := v })
    t.length (by decide) hl ffh_length (fun _ _ => rfl)
  have e16 := entryOK_uint keyLengthMs .lengthMs (fun x v => { x with lengthMs := v })
    t.lengthMs (by decide) hlm ffh_lengthMs (fun _ _ => rfl)
  have hok : ∀ e ∈ encEntries t, EntryOK e := by
    intro e he
    simp only [encEntries, List.mem_cons, List.not_mem_nil, or_false] at he
    rcases he with rfl | rfl | rfl | rfl | rfl | rfl | rfl | rfl | rfl | rfl | rfl | rfl | rfl | rfl | rfl | rfl
    · exact e1.1
    · exact e2.1
    · exact e3.1
    · exact e4.1
    · exact e5.1
    · exact e6.1
    · exact e7.1
    · exact e8.1
    · exact e9.1
    · exact e10.1
    · exact e11.1
    · exact e12.1
    · exact e13.1
    · exact e14.1
    · exact e15.1
    · exact e16.1
  have hdec := @tags_decode_core_mapBytes (encEntries t)
    (by simp [encEntries]) hok
  rw [← tags_encode_bytes_eq_mapBytes] at hdec
  unfold tags_decode
  rw [hdec]
  simp only [encEntries, List.foldl_cons, List.foldl_nil,
    e1.2, e2.2, e3.2, e4.2, e5.2, e6.2, e7.2, e8.2, e9.2, e10.2, e11.2,
    e12.2, e13.2, e14.2, e15.2, e16.2]

/-- Selector for the sixteen fields (string fields on the left). -/

lemma applyHandler_preserves {g : TagField} {t t2 : TagData} {bs r : List Nat}
    (h : applyHandler g t bs = .ok (t2, r)) (f : TagField) (hfg : f ≠ g) :
    fieldSel f t2 = fieldSel f t := by
  cases g <;> simp only [applyHandler] at h <;>
    first
      | (rcases hds : decode_string_field bs with err | ⟨s, rr⟩
         · rw [hds] at h
           exact Except.noConfusion h
         · rw [hds] at h
           simp only [Except.map, Except.ok.injEq, Prod.mk.injEq] at h
           rw [← h.1]
           cases f <;> first | exact absurd rfl hfg | simp [fieldSel])
      | (rcases hu : mpExpectUint32 bs with _ | ⟨v, rr⟩
         · rw [hu] at h
           exact Except.noConfusion h
         · rw [hu] at h
           simp only [Except.ok.injEq, Prod.mk.injEq] at h
           rw [← h.1]
           cases f <;> first | exact absurd rfl hfg | simp [fieldSel])

/-- An entry whose key does not dispatch to handler `f` leaves field `f`
unchanged. -/

lemma stepEntry_preserves {e : WireEntry} {f : TagField}
    (hne : find_field_handler e.key ≠ some f) (t : TagData) :
    fieldSel f (stepEntry t e) = fieldSel f t := by
  unfold stepEntry
  rcases hfe : find_field_handler e.key with _ | g
  · rfl
  · have hfg : f ≠ g := fun hh => hne (by rw [hfe, hh])
    rcases ha : applyHandler g t e.valEnc with err | p
    · simp only [ha]
    · simp only [ha]
      exact applyHandler_preserves ha f hfg

lemma foldl_stepEntry_preserves {f : TagField} :
    ∀ (es : List WireEntry) (z : TagData),
      (∀ e ∈ es, find_field_handler e.key ≠ some f) →
      fieldSel f (es.foldl stepEntry z) = fieldSel f z := by
  intro es
  induction es with
  | nil => intro z _; rfl
  | cons e es ih =>
    intro z hn
    simp only [List.foldl_cons]
    rw [ih _ (fun x hx => hn x (List.mem_cons_of_mem e hx)),
      stepEntry_preserves (hn e (List.mem_cons_self e es)) z]

/-- The field a dispatched entry writes does not depend on the record it
is applied to. -/

lemma stepEntry_indep {e : WireEntry} {f : TagField}
    (happly : ∀ t r, applyHandler f t (e.valEnc ++ r) = .ok (stepEntry t e, r))
    (t t2 : TagData) :
    fieldSel f (stepEntry t e) = fieldSel f (stepEntry t2 e) := by
  have h := happly t []
  have h2 := happly t2 []
  rw [List.append_nil] at h h2
  cases f <;> simp only [applyHandler] at h h2 <;>
    first
      | (rcases hds : decode_string_field e.valEnc with err | ⟨s, rr⟩
         · rw [hds] at h
           exact Except.noConfusion h
         · rw [hds] at h h2
           simp only [Except.map, Except.ok.injEq, Prod.mk.injEq] at h h2
           rw [← h.1, ← h2.1]
           rfl)
      | (rcases hu : mpExpectUint32 e.valEnc with _ | ⟨v, rr⟩
         · rw [hu] at h
           exact Except.noConfusion h
         · rw [hu] at h h2
           simp only [Except.ok.injEq, Prod.mk.injEq] at h h2
           rw [← h.1, ← h2.1]
           rfl)

theorem C2_roundtrip_witness :
    WFTag sampleTag ∧
      tags_decode (tags_encode_bytes sampleTag) none = (MP_OK, some sampleTag) :=
  ⟨by decide, C2_roundtrip sampleTag (by decide)⟩

/-- C8: whenever `tags_decode` returns a status other than `MP_OK`, the
`*out` parameter is left unwritten (no partial record is ever stored). -/

theorem C8_no_partial_record (bs : List Nat) (out : Option TagData)
    (h : (tags_decode bs out).1 ≠ MP_OK) : (tags_decode bs out).2 = out := by
  unfold tags_decode at h ⊢
  rcases hc : tags_decode_core bs with e | t
  · rfl
  · rw [hc] at h
    exact absurd rfl h

theorem C8_witness :
    (tags_decode [0xc1] (some sampleTag)).1 ≠ MP_OK ∧
      (tags_decode [0xc1] (some sampleTag)).2 = some sampleTag :=
  ⟨by decide, C8_no_partial_record [0xc1] (some sampleTag) (by decide)⟩

/-- C5: the size pass returns exactly the byte count a successful encode
pass reports in `*out_len`. -/

theorem C5_size_matches_encode (t : TagData) (cap n m : Nat) (bs : List Nat)
    (hs : tags_encode_size t = (MP_OK, some n))
    (he : tags_encode t cap = (MP_OK, some (bs, m))) : m = n := by
  unfold tags_encode_size at hs
  unfold tags_encode at he
  split at he
  case isTrue hle =>
    simp only [Prod.mk.injEq, Option.some.injEq] at hs he
    have hbytes : tags_encode_size_bytes t = tags_encode_bytes t := rfl
    rw [← he.2.2, ← hs.2, hbytes]
  case isFalse hle =>
    simp only [Prod.mk.injEq] at he
    exact absurd he.1 (by decide)

theorem C5_witness :
    (tags_encode_bytes sampleTag).length = (tags_encode_size_bytes sampleTag).length :=
  C5_size_matches_encode sampleTag 4096 _ _ _ rfl
    (by unfold tags_encode; rw [if_pos (by decide)])

/-- Modelled from the spec: the canonical field order of the data-model
and wire-format tables (the seven string fields, then the nine
unsigned-integer fields).  Used only for comparison with the order the
source actually writes. -/

theorem C1_counterexample :
    wireKeys (tags_encode_bytes zeroTagData) = some codeOrderKeys ∧
      codeOrderKeys ≠ specOrderKeys ∧
      tags_encode_bytes zeroTagData ≠ tags_encode_bytes_spec_order zeroTagData := by
  refine ⟨by decide, by decide, by decide⟩

/-- C1 (amended): `tags_encode` writes a single top-level 16-entry map
whose entries appear in the fixed source order title, artist, album,
year, track, genre, comment, albumArtist, composer, disc, bpm, bitrate,
sampleRate, channels, length, lengthMs (three strings, two integers, four
strings, then seven integers). -/

theorem C1_fixed_order (t : TagData) (h : WFTag t) :
    (mpExpectMap (tags_encode_bytes t)).map Prod.fst = some 16 ∧
      wireKeys (tags_encode_bytes t) = some codeOrderKeys := by
  obtain ⟨ht, ha, hal, hg, hc, haa, hcm, hy, htr, hd, hb, hbr, hsr, hch, hl, hlm⟩ := h
  rw [tags_encode_bytes_eq_mapBytes]
  constructor
  · unfold mapBytes
    rw [mpExpectMap_mapHdr (by simp [encEntries])]
    rfl
  · have hok : ∀ e ∈ encEntries t, EntrySkipOK e := by
      intro e he
      simp only [encEntries, List.mem_cons, List.not_mem_nil, or_false] at he
      rcases he with rfl | rfl | rfl | rfl | rfl | rfl | rfl | rfl | rfl | rfl | rfl | rfl | rfl | rfl | rfl | rfl
      · exact ⟨fun r => mpExpectStrLen_strEnc (by decide) r, IsValue_strEnc ht.1⟩
      · exact ⟨fun r => mpExpectStrLen_strEnc (by decide) r, IsValue_strEnc ha.1⟩
      · exact ⟨fun r => mpExpectStrLen_strEnc (by decide) r, IsValue_strEnc hal.1⟩
      · exact ⟨fun r => mpExpectStrLen_strEnc (by decide) r, IsValue_uintEnc t.year⟩
      · exact ⟨fun r => mpExpectStrLen_strEnc (by decide) r, IsValue_uintEnc t.track⟩
      · exact ⟨fun r => mpExpectStrLen_strEnc (by decide) r, IsValue_strEnc hg.1⟩
      · exact ⟨fun r => mpExpectStrLen_strEnc (by decide) r, IsValue_strEnc hc.1⟩
      · exact ⟨fun r => mpExpectStrLen_strEnc (by decide) r, IsValue_strEnc haa.1⟩
      · exact ⟨fun r => mpExpectStrLen_strEnc (by decide) r, IsValue_strEnc hcm.1⟩
      · exact ⟨fun r => mpExpectStrLen_strEnc (by decide) r, IsValue_uintEnc t.disc⟩
      · exact ⟨fun r => mpExpectStrLen_strEnc (by decide) r, IsValue_uintEnc t.bpm⟩
      · exact ⟨fun r => mpExpectStrLen_strEnc (by decide) r, IsValue_uintEnc t.bitrate⟩
      · exact ⟨fun r => mpExpectStrLen_strEnc (by decide) r, IsValue_uintEnc t.sampleRate⟩
      · exact ⟨fun r => mpExpectStrLen_strEnc (by decide) r, IsValue_uintEnc t.channels⟩
      · exact ⟨fun r => mpExpectStrLen_strEnc (by decide) r, IsValue_uintEnc t.length⟩
      · exact ⟨fun r => mpExpectStrLen_strEnc (by decide) r, IsValue_uintEnc t.lengthMs⟩
    rw [wireKeys_mapBytes (by simp [encEntries]) hok]
    rfl

theorem C1_fixed_order_witness :
    (mpExpectMap (tags_encode_bytes sampleTag)).map Prod.fst = some 16 ∧
      wireKeys (tags_encode_bytes sampleTag) = some codeOrderKeys :=
  C1_fixed_order sampleTag (by decide)

/-- A wire key whose bytes are `album` followed by a NUL and one more
byte: as a MessagePack string it differs from every known field name,
but after the decoder NUL-terminates it, `strcmp` sees only `album`. -/

theorem C7_counterexample :
    nulKey ∉ knownKeyNames ∧ IsValue nulEntry.valEnc ∧
      (tags_decode c7map1 none).1 = MP_OK ∧
      (tags_decode c7map2 none).1 = MP_OK ∧
      (tags_decode c7map1 none).2 ≠ (tags_decode c7map2 none).2 := by
  refine ⟨by decide, by decide, by decide, by decide, by decide⟩

lemma foldl_stepEntry_filter :
    ∀ (es : List WireEntry) (z : TagData),
      (∀ e ∈ es, e.key ∉ knownKeyNames → ∀ b ∈ e.key, b ≠ 0) →
      (es.filter (fun e => decide (e.key ∈ knownKeyNames))).foldl stepEntry z =
        es.foldl stepEntry z := by
  intro es
  induction es with
  | nil => intro z _; rfl
  | cons e es ih =>
    intro z hn
    have hrest : ∀ x ∈ es, x.key ∉ knownKeyNames → ∀ b ∈ x.key, b ≠ 0 :=
      fun x hx => hn x (List.mem_cons_of_mem e hx)
    by_cases hk : e.key ∈ knownKeyNames
    · simp only [List.filter_cons, hk, decide_eq_true_eq, if_pos, List.foldl_cons]
      exact ih (stepEntry z e) hrest
    · have h0 := hn e (List.mem_cons_self e es) hk
      have hf := find_field_handler_none h0 hk
      have hstep : stepEntry z e = z := by
        unfold stepEntry
        simp only [hf]
      simp only [List.filter_cons, hk, decide_eq_true_eq, if_neg, if_false,
        List.foldl_cons, hstep]
      exact ih z hrest

/-- C7 (amended): decoding a well-formed map succeeds and yields a record
identical to decoding the same map with the unknown entries removed,
provided every unknown key (a key that is not one of the sixteen field
names) contains no NUL byte.  (The counterexample shows the NUL-byte
restriction is necessary: the C-string comparison truncates wire keys at
the first NUL.) -/

theorem C7_unknown_keys_skipped (es : List WireEntry)
    (hok : ∀ e ∈ es, EntryOK e)
    (hlen : es.length < 2 ^ 32)
    (hnul : ∀ e ∈ es, e.key ∉ knownKeyNames → ∀ b ∈ e.key, b ≠ 0) :
    ∃ t : TagData,
      tags_decode (mapBytes es) none = (MP_OK, some t) ∧
      tags_decode
          (mapBytes (es.filter (fun e => decide (e.key ∈ knownKeyNames)))) none
        = (MP_OK, some t) := by
  refine ⟨es.foldl stepEntry zeroTagData, ?_, ?_⟩
  · unfold tags_decode
    rw [tags_decode_core_mapBytes hlen hok]
  · unfold tags_decode
    have hok2 : ∀ e ∈ es.filter (fun e => decide (e.key ∈ knownKeyNames)),
        EntryOK e := fun e he => hok e (List.mem_of_mem_filter he)
    have hlen2 : (es.filter (fun e => decide (e.key ∈ knownKeyNames))).length
        < 2 ^ 32 :=
      lt_of_le_of_lt (List.length_filter_le _ es) hlen
    rw [tags_decode_core_mapBytes hlen2 hok2, foldl_stepEntry_filter es zeroTagData hnul]

theorem C7_unknown_keys_skipped_witness :
    ∃ t : TagData,
      tags_decode (mapBytes [⟨strEnc [120], [120], [0xc0]⟩]) none = (MP_OK, some t) ∧
      tags_decode
          (mapBytes (([⟨strEnc [120], [120], [0xc0]⟩] : List WireEntry).filter
            (fun e => decide (e.key ∈ knownKeyNames)))) none
        = (MP_OK, some t) :=
  C7_unknown_keys_skipped [⟨strEnc [120], [120], [0xc0]⟩]
    (by
      intro e he
      simp only [List.mem_singleton] at he
      subst he
      exact (entryOK_unknown _ (fun r => mpExpectStrLen_strEnc (by decide) r)
        (by decide) (by decide)).1)
    (by decide)
    (by decide)

/-- C10: when the same known field key appears more than once (with
type-correct values), decoding succeeds and the field holds the value
decoded from the last occurrence: later entries overwrite earlier ones,
with no duplicate detection and no error. -/

theorem C10_last_occurrence_wins
    (es1 es2 es3 : List WireEntry) (e1 e2 : WireEntry) (f : TagField)
    (hok : ∀ e ∈ es1 ++ [e1] ++ es2 ++ [e2] ++ es3, EntryOK e)
    (hlen : (es1 ++ [e1] ++ es2 ++ [e2] ++ es3).length < 2 ^ 32)
    (hf1 : find_field_handler e1.key = some f)
    (hf2 : find_field_handler e2.key = some f)
    (hlast : ∀ e ∈ es3, find_field_handler e.key ≠ some f) :
    ∃ t : TagData,
      tags_decode (mapBytes (es1 ++ [e1] ++ es2 ++ [e2] ++ es3)) none
        = (MP_OK, some t) ∧
      fieldSel f t = fieldSel f (stepEntry zeroTagData e2) := by
  refine ⟨(es1 ++ [e1] ++ es2 ++ [e2] ++ es3).foldl stepEntry zeroTagData, ?_, ?_⟩
  · unfold tags_decode
    rw [tags_decode_core_mapBytes hlen hok]
  · have he2 : EntryOK e2 := hok e2 (by simp)
    have happly := he2.2
    rw [hf2] at happly
    rw [List.foldl_append, List.foldl_append, List.foldl_append,
      List.foldl_append]
    rw [foldl_stepEntry_preserves es3 _ hlast]
    simp only [List.foldl_cons, List.foldl_nil]
    exact stepEntry_indep happly _ zeroTagData

theorem C10_last_occurrence_wins_witness :
    ∃ t : TagData,
      tags_decode (mapBytes ([] ++ [⟨strEnc keyYear, keyYear, uintEnc 1999⟩] ++ [] ++
          [⟨strEnc keyYear, keyYear, uintEnc 2024⟩] ++ [])) none = (MP_OK, some t) ∧
      fieldSel .year t =
        fieldSel .year (stepEntry zeroTagData ⟨strEnc keyYear, keyYear, uintEnc 2024⟩) :=
  C10_last_occurrence_wins [] [] [] ⟨strEnc keyYear, keyYear, uintEnc 1999⟩
    ⟨strEnc keyYear, keyYear, uintEnc 2024⟩ .year
    (by
      intro e he
      simp at he
      rcases he with rfl | rfl
      · exact (entryOK_uint keyYear .year (fun x v => { x with year := v })
          1999 (by decide) (by decide) ffh_year (fun _ _ => rfl)).1
      · exact (entryOK_uint keyYear .year (fun x v => { x with year := v })
          2024 (by decide) (by decide) ffh_year (fun _ _ => rfl)).1)
    (by decide)
    ffh_year ffh_year
    (by intro e he; exact absurd he (List.not_mem_nil e))

/-- The 32-bit `size_t` modulus of the wasm32 target. -/

lemma align64_mod64 (n : Nat) : align64 n % 64 = 0 := by
  unfold align64
  omega

lemma align64_ge {n : Nat} (h : n + 63 < SIZE_MOD) : n ≤ align64 n := by
  unfold align64
  rw [Nat.mod_eq_of_lt h]
  omega

lemma align64_ge64 {n : Nat} (h0 : n ≠ 0) (h : n + 63 < SIZE_MOD) :
    64 ≤ align64 n := by
  unfold align64
  rw [Nat.mod_eq_of_lt h]
  omega

lemma RangeDisj_symm {x y : Nat × Nat} (h : RangeDisj x y) : RangeDisj y x := by
  unfold RangeDisj at *
  omega

lemma RangeDisj_mono (R1 R2 : Nat × Nat) {r1 r2 : Nat × Nat}
    (h1 : R1.1 ≤ r1.1 ∧ r1.1 + r1.2 ≤ R1.1 + R1.2)
    (h2 : R2.1 ≤ r2.1 ∧ r2.1 + r2.2 ≤ R2.1 + R2.2)
    (h : RangeDisj R1 R2) : RangeDisj r1 r2 := by
  unfold RangeDisj at *
  omega

lemma getElem?_some_lt {α : Type} {l : List α} {i : Nat} {x : α}
    (h : l[i]? = some x) : i < l.length :=
  (List.getElem?_eq_some_iff.mp h).1

lemma set_self {α : Type} {l : List α} {i : Nat} {a : α}
    (h : l[i]? = some a) : l.set i a = l := by
  apply List.ext_getElem?
  intro j
  rw [List.getElem?_set]
  split
  case isTrue he =>
    subst he
    rw [if_pos (getElem?_some_lt h)]
    exact h.symm
  case isFalse => rfl

lemma pairwise_two {α : Type} {R : α → α → Prop} :
    ∀ {l : List α}, l.Pairwise R → ∀ {i j : Nat} {x y : α},
      l[i]? = some x → l[j]? = some y → i ≠ j → R x y ∨ R y x := by
  intro l
  induction l with
  | nil =>
    intro _ i j x y hx _ _
    simp at hx
  | cons a l ih =>
    intro hp i j x y hx hy hij
    match i, j with
    | 0, 0 => exact absurd rfl hij
    | 0, j + 1 =>
      rw [List.getElem?_cons_zero, Option.some.injEq] at hx
      subst hx
      rw [List.getElem?_cons_succ] at hy
      exact Or.inl ((List.pairwise_cons.mp hp).1 y (List.getElem?_mem hy))
    | i + 1, 0 =>
      rw [List.getElem?_cons_zero, Option.some.injEq] at hy
      subst hy
      rw [List.getElem?_cons_succ] at hx
      exact Or.inr ((List.pairwise_cons.mp hp).1 x (List.getElem?_mem hx))
    | i + 1, j + 1 =>
      rw [List.getElem?_cons_succ] at hx hy
      exact ih (List.pairwise_cons.mp hp).2 hx hy (by omega)

/-- One `tl_pool_alloc` call on a well-formed pool with a legal system
address: the invariant is preserved, every previously reserved range
stays reserved, and a returned pointer covers a freshly reserved range
disjoint from everything reserved before. -/

lemma tl_pool_alloc_step {p : PoolState} {sz a : Nat}
    (hinv : PoolInv p) (hleg : StepLegal p sz a) (hsz : sz + 63 < SIZE_MOD) :
    PoolInv (tl_pool_alloc p sz a).2 ∧
    (∀ r, Reserved p r → Reserved (tl_pool_alloc p sz a).2 r) ∧
    (∀ ptr, (tl_pool_alloc p sz a).1 = some ptr →
      Reserved (tl_pool_alloc p sz a).2 (ptr, sz) ∧
      ∀ r, Reserved p r → RangeDisj (ptr, sz) r) := by
  obtain ⟨hwf, hbb, hbl, hll⟩ := hinv
  have hges : sz ≤ align64 sz := align64_ge hsz
  by_cases h0 : sz = 0
  · simp only [tl_pool_alloc, if_pos h0]
    refine ⟨⟨hwf, hbb, hbl, hll⟩, fun r hr => hr, ?_⟩
    intro ptr hptr
    exact Option.noConfusion hptr
  by_cases hbig : align64 sz > LARGE_ALLOCATION_THRESHOLD
  · -- large-allocation path
    simp only [tl_pool_alloc, if_neg h0, if_pos hbig]
    unfold StepLegal at hleg
    rw [if_neg h0, if_pos hbig] at hleg
    obtain ⟨ha16, hfb, hfl⟩ := hleg
    refine ⟨⟨hwf, hbb, ?_, ?_⟩, ?_, ?_⟩
    · intro b hb la hla
      rcases List.mem_append.mp hla with hla | hla
      · exact hbl b hb la hla
      · rw [List.mem_singleton.mp hla]
        exact RangeDisj_symm (hfb b hb)
    · rw [List.pairwise_append]
      refine ⟨hll, List.pairwise_singleton _ _, ?_⟩
      intro x hx y hy
      rw [List.mem_singleton.mp hy]
      exact RangeDisj_symm (hfl x hx)
    · intro r hr
      rcases hr with ⟨i, b, hib, hc⟩ | ⟨la, hla, hc⟩
      · exact Or.inl ⟨i, b, hib, hc⟩
      · exact Or.inr ⟨la, List.mem_append_left _ hla, hc⟩
    · intro ptr hptr
      injection hptr with hptr
      subst hptr
      constructor
      · refine Or.inr ⟨(a, align64 sz), ?_, by omega, by omega⟩
        exact List.mem_append_right _ (List.mem_singleton.mpr rfl)
      · intro r hr
        rcases hr with ⟨i, b, hib, hc⟩ | ⟨la, hla, hc⟩
        · have hbmem := List.getElem?_mem hib
          have husz := (hwf b hbmem).1
          refine RangeDisj_mono (a, align64 sz)
            (b.addr, b.size) ⟨le_refl a, by omega⟩
            ⟨hc.1, by omega⟩ (hfb b hbmem)
        · exact RangeDisj_mono (a, align64 sz) la
            ⟨le_refl a, by omega⟩ ⟨hc.1, hc.2⟩ (hfl la hla)
  by_cases hnew : needNewBlock p (align64 sz) = true
  · -- fresh-block path
    simp only [tl_pool_alloc, if_neg h0, if_neg hbig, if_pos hnew]
    unfold StepLegal at hleg
    rw [if_neg h0, if_neg hbig, if_pos hnew] at hleg
    obtain ⟨ha64, hfb, hfl⟩ := hleg
    have hSB : align64 sz ≤ max p.default_block_size (align64 sz * 2) :=
      le_trans (by omega) (le_max_right _ _)
    refine ⟨⟨?_, ?_, ?_, hll⟩, ?_, ?_⟩
    · intro b hb
      rcases List.mem_append.mp hb with hb | hb
      · exact hwf b hb
      · rw [List.mem_singleton.mp hb]
        exact ⟨hSB, ha64, align64_mod64 sz⟩
    · rw [List.pairwise_append]
      refine ⟨hbb, List.pairwise_singleton _ _, ?_⟩
      intro x hx y hy
      rw [List.mem_singleton.mp hy]
      exact RangeDisj_symm (hfb x hx)
    · intro b hb la hla
      rcases List.mem_append.mp hb with hb | hb
      · exact hbl b hb la hla
      · rw [List.mem_singleton.mp hb]
        exact hfl la hla
    · intro r hr
      rcases hr with ⟨i, b, hib, hc⟩ | ⟨la, hla, hc⟩
      · have hi := getElem?_some_lt hib
        refine Or.inl ⟨i, b, ?_, hc⟩
        rw [List.getElem?_append, if_pos hi]
        exact hib
      · exact Or.inr ⟨la, hla, hc⟩
    · intro ptr hptr
      injection hptr with hptr
      subst hptr
      constructor
      · refine Or.inl ⟨p.blocks.length,
          ⟨a, max p.default_block_size (align64 sz * 2), align64 sz⟩, ?_,
          show a ≤ a from le_refl a,
          show a + sz ≤ a + align64 sz by omega⟩
        simp
      · intro r hr
        rcases hr with ⟨i, b, hib, hc⟩ | ⟨la, hla, hc⟩
        · have hbmem := List.getElem?_mem hib
          have husz := (hwf b hbmem).1
          exact RangeDisj_mono
            (a, max p.default_block_size (align64 sz * 2))
            (b.addr, b.size) ⟨le_refl a, by omega⟩
            ⟨hc.1, by omega⟩ (hfb b hbmem)
        · exact RangeDisj_mono
            (a, max p.default_block_size (align64 sz * 2))
            la ⟨le_refl a, by omega⟩ ⟨hc.1, hc.2⟩ (hfl la hla)
  · -- bump path inside the current block
    rcases hcur : p.curIdx with _ | i
    · exfalso
      apply hnew
      unfold needNewBlock curBlock
      rw [hcur]
      rfl
    rcases hbi : p.blocks[i]? with _ | b
    · exfalso
      apply hnew
      unfold needNewBlock curBlock
      rw [hcur]
      simp [hbi]
    have hfit : b.used + align64 sz ≤ b.size := by
      unfold needNewBlock curBlock at hnew
      rw [hcur] at hnew
      simp [hbi] at hnew
      omega
    simp only [tl_pool_alloc, if_neg h0, if_neg hbig, if_neg hnew, hcur,
      Option.getD_some, hbi]
    have hi := getElem?_some_lt hbi
    have hbmem := List.getElem?_mem hbi
    have hwfb := hwf b hbmem
    refine ⟨⟨?_, ?_, ?_, hll⟩, ?_, ?_⟩
    · intro x hx
      rcases List.mem_or_eq_of_mem_set hx with hx | hx
      · exact hwf x hx
      · subst hx
        refine ⟨show b.used + align64 sz ≤ b.size from hfit, hwfb.2.1,
          show (b.used + align64 sz) % 64 = 0 by
            have h1 := hwfb.2.2
            have h2 := align64_mod64 sz
            omega⟩
    · have hsetmap : (p.blocks.set i ⟨b.addr, b.size, b.used + align64 sz⟩).map
          (fun x => (x.addr, x.size)) = p.blocks.map (fun x => (x.addr, x.size)) := by
        rw [List.map_set]
        apply set_self
        rw [List.getElem?_map, hbi]
        rfl
      refine List.pairwise_map.mp ?_
      rw [hsetmap]
      exact List.pairwise_map.mpr hbb
    · intro x hx la hla
      rcases List.mem_or_eq_of_mem_set hx with hx | hx
      · exact hbl x hx la hla
      · subst hx
        exact hbl b hbmem la hla
    · intro r hr
      rcases hr with ⟨j, x, hjx, hc⟩ | ⟨la, hla, hc⟩
      · by_cases hij : i = j
        · subst hij
          rw [hbi] at hjx
          injection hjx with hjx
          subst hjx
          refine Or.inl ⟨i, ⟨b.addr, b.size, b.used + align64 sz⟩, ?_, hc.1,
            show r.1 + r.2 ≤ b.addr + (b.used + align64 sz) by
              have := hc.2
              omega⟩
          rw [List.getElem?_set, if_pos rfl, if_pos hi]
        · refine Or.inl ⟨j, x, ?_, hc⟩
          rw [List.getElem?_set, if_neg hij]
          exact hjx
      · exact Or.inr ⟨la, hla, hc⟩
    · intro ptr hptr
      injection hptr with hptr
      subst hptr
      constructor
      · refine Or.inl ⟨i, ⟨b.addr, b.size, b.used + align64 sz⟩, ?_,
          show b.addr ≤ b.addr + b.used by omega,
          show b.addr + b.used + sz ≤ b.addr + (b.used + align64 sz) by omega⟩
        rw [List.getElem?_set, if_pos rfl, if_pos hi]
      · intro r hr
        rcases hr with ⟨j, x, hjx, hc⟩ | ⟨la, hla, hc⟩
        · by_cases hij : i = j
          · subst hij
            rw [hbi] at hjx
            injection hjx with hjx
            subst hjx
            unfold RangeDisj
            right
            omega
          · have hxmem := List.getElem?_mem hjx
            have hxwf := hwf x hxmem
            have hdisj : RangeDisj (b.addr, b.size) (x.addr, x.size) := by
              rcases pairwise_two hbb hbi hjx hij with h | h
              · exact h
              · exact RangeDisj_symm h
            exact RangeDisj_mono (b.addr, b.size) (x.addr, x.size)
              ⟨by omega, by omega⟩ ⟨hc.1, by omega⟩ hdisj
        · have hdisj := hbl b hbmem la hla
          exact RangeDisj_mono (b.addr, b.size) la
            ⟨by omega, by omega⟩ ⟨hc.1, hc.2⟩ hdisj

/-- Align-to-8 of `arena_alloc` (`size = (size + 7) & ~7` on 32-bit
`size_t`). -/

lemma PoolInv_create {initial_size addr : Nat} (haddr : addr % 64 = 0) :
    PoolInv (tl_pool_create initial_size addr) := by
  unfold PoolInv tl_pool_create
  refine ⟨?_, ?_, ?_, List.Pairwise.nil⟩
  · intro b hb
    rw [List.mem_singleton.mp hb]
    exact ⟨Nat.zero_le _, haddr, rfl⟩
  · exact List.pairwise_singleton _ _
  · intro b _ la hla
    exact absurd hla (List.not_mem_nil la)

/-- Running a legal trace preserves the invariant and produces pairwise
disjoint, reserved result ranges. -/

lemma runAllocs_disjoint :
    ∀ (tr : List (Nat × Nat)) (p : PoolState),
      PoolInv p → LegalTrace p tr → (∀ x ∈ tr, x.1 + 63 < SIZE_MOD) →
      PoolInv (runAllocs p tr).1 ∧
      (∀ r, Reserved p r → Reserved (runAllocs p tr).1 r) ∧
      (∀ r ∈ (runAllocs p tr).2.filterMap id, Reserved (runAllocs p tr).1 r) ∧
      (∀ r ∈ (runAllocs p tr).2.filterMap id,
        ∀ r0, Reserved p r0 → RangeDisj r r0) ∧
      ((runAllocs p tr).2.filterMap id).Pairwise RangeDisj := by
  intro tr
  induction tr with
  | nil =>
    intro p hinv _ _
    exact ⟨hinv, fun r hr => hr, fun r hr => absurd hr (List.not_mem_nil r),
      fun r hr => absurd hr (List.not_mem_nil r), List.Pairwise.nil⟩
  | cons x rest ih =>
    intro p hinv hleg hsz
    obtain ⟨hstep, hlegr⟩ := hleg
    obtain ⟨hinv2, htrans, hnewr⟩ :=
      tl_pool_alloc_step hinv hstep (hsz x (List.mem_cons_self x rest))
    have hszr : ∀ y ∈ rest, y.1 + 63 < SIZE_MOD :=
      fun y hy => hsz y (List.mem_cons_of_mem x hy)
    obtain ⟨ihinv, ihtrans, ihres, ihdisj, ihpw⟩ :=
      ih (tl_pool_alloc p x.1 x.2).2 hinv2 hlegr hszr
    simp only [runAllocs]
    rcases hres : (tl_pool_alloc p x.1 x.2).1 with _ | ptr
    · simp only [Option.map_none', List.filterMap_cons, id_eq]
      refine ⟨ihinv, fun r hr => ihtrans r (htrans r hr), ihres, ?_, ihpw⟩
      intro r hr r0 hr0
      exact ihdisj r hr r0 (htrans r0 hr0)
    · obtain ⟨hnres, hndisj⟩ := hnewr ptr hres
      simp only [Option.map_some', List.filterMap_cons, id_eq]
      refine ⟨ihinv, fun r hr => ihtrans r (htrans r hr), ?_, ?_, ?_⟩
      · intro r hr
        rcases List.mem_cons.mp hr with hr | hr
        · subst hr
          exact ihtrans _ hnres
        · exact ihres r hr
      · intro r hr r0 hr0
        rcases List.mem_cons.mp hr with hr | hr
        · subst hr
          exact hndisj r0 hr0
        · exact ihdisj r hr r0 (htrans r0 hr0)
      · refine List.Pairwise.cons ?_ ihpw
        intro r hr
        exact RangeDisj_symm (ihdisj r hr (ptr, x.1) hnres)

/-- C9 (amended): for any sequence of successful `tl_pool_alloc` calls on
one pool with no intervening reset, with every requested size at most
`2^32 - 64` (so the 64-byte round-up cannot wrap the 32-bit `size_t`),
the returned ranges `[ptr, ptr + size)` are pairwise disjoint — across
bump allocations, fresh blocks and large allocations. -/

theorem C9_ranges_pairwise_disjoint (initial_size addr : Nat)
    (tr : List (Nat × Nat)) (haddr : addr % 64 = 0)
    (hleg : LegalTrace (tl_pool_create initial_size addr) tr)
    (hsz : ∀ x ∈ tr, x.1 ≤ SIZE_MOD - 64) :
    ((runAllocs (tl_pool_create initial_size addr) tr).2.filterMap id).Pairwise
      RangeDisj := by
  have hsz2 : ∀ x ∈ tr, x.1 + 63 < SIZE_MOD := by
    intro x hx
    have := hsz x hx
    unfold SIZE_MOD at *
    omega
  exact (runAllocs_disjoint tr _ (PoolInv_create haddr) hleg hsz2).2.2.2.2

theorem C9_ranges_pairwise_disjoint_witness :
    ((runAllocs (tl_pool_create 1024 0) [(100, 5), (200, 7)]).2.filterMap id).Pairwise
      RangeDisj :=
  C9_ranges_pairwise_disjoint 1024 0 [(100, 5), (200, 7)] (by decide) (by decide)
    (by decide)

/-- C9 (counterexample): on 32-bit `size_t` a request of `2^32 - 1` bytes
wraps the round-up `(size + 63) & ~63` to 0, so the call "succeeds",
returns the current bump pointer without advancing it, and the next
allocation returns the very same pointer: the ranges
`[ptr, ptr + 2^32 - 1)` and `[ptr, ptr + 64)` overlap. -/

theorem C9_counterexample :
    LegalTrace (tl_pool_create 1024 0) [(4294967295, 7), (64, 9)] ∧
      (runAllocs (tl_pool_create 1024 0) [(4294967295, 7), (64, 9)]).2
        = [some (0, 4294967295), some (0, 64)] ∧
      ¬ ((runAllocs (tl_pool_create 1024 0)
          [(4294967295, 7), (64, 9)]).2.filterMap id).Pairwise RangeDisj := by
  refine ⟨by decide, by decide, by decide⟩

/-- C3 (amended): a pointer served from the block path (bump allocation
or a fresh block) is always 64-byte aligned; the large-allocation path
returns exactly the address `operator new[]` produced, which carries no
64-byte alignment guarantee. -/

theorem C3_block_path_alignment (p : PoolState) (sz a : Nat)
    (hinv : PoolInv p) (hleg : StepLegal p sz a) :
    (¬ align64 sz > LARGE_ALLOCATION_THRESHOLD →
      ∀ ptr, (tl_pool_alloc p sz a).1 = some ptr → ptr % 64 = 0) ∧
    (align64 sz > LARGE_ALLOCATION_THRESHOLD → sz ≠ 0 →
      (tl_pool_alloc p sz a).1 = some a) := by
  obtain ⟨hwf, _, _, _⟩ := hinv
  constructor
  · intro hsmall ptr hres
    by_cases h0 : sz = 0
    · simp only [tl_pool_alloc, if_pos h0] at hres
      exact Option.noConfusion hres
    by_cases hnew : needNewBlock p (align64 sz) = true
    · simp only [tl_pool_alloc, if_neg h0, if_neg hsmall, if_pos hnew] at hres
      injection hres with hres
      subst hres
      unfold StepLegal at hleg
      rw [if_neg h0, if_neg hsmall, if_pos hnew] at hleg
      exact hleg.1
    · rcases hcur : p.curIdx with _ | i
      · exfalso
        apply hnew
        unfold needNewBlock curBlock
        rw [hcur]
        rfl
      rcases hbi : p.blocks[i]? with _ | b
      · exfalso
        apply hnew
        unfold needNewBlock curBlock
        rw [hcur]
        simp [hbi]
      simp only [tl_pool_alloc, if_neg h0, if_neg hsmall, if_neg hnew, hcur,
        Option.getD_some, hbi] at hres
      injection hres with hres
      subst hres
      have hwfb := hwf b (List.getElem?_mem hbi)
      have h1 := hwfb.2.1
      have h2 := hwfb.2.2
      omega
  · intro hbig h0
    simp only [tl_pool_alloc, if_neg h0, if_pos hbig]

theorem C3_block_path_alignment_witness :
    (¬ align64 100 > LARGE_ALLOCATION_THRESHOLD →
      ∀ ptr, (tl_pool_alloc (tl_pool_create 1024 0) 100 0).1 = some ptr →
        ptr % 64 = 0) ∧
    (align64 100 > LARGE_ALLOCATION_THRESHOLD → 100 ≠ 0 →
      (tl_pool_alloc (tl_pool_create 1024 0) 100 0).1 = some 0) :=
  C3_block_path_alignment (tl_pool_create 1024 0) 100 0 (by decide) (by decide)

/-- C3 (counterexample): a legal run in which `operator new[]` returns
the 16-byte-aligned address 4194320 for a 2 MiB request: the pool
returns that address unchanged, and it is not a multiple of 64. -/

theorem C3_counterexample :
    PoolInv (tl_pool_create 1024 0) ∧
      StepLegal (tl_pool_create 1024 0) (2 * 1024 * 1024) 4194320 ∧
      (tl_pool_alloc (tl_pool_create 1024 0) (2 * 1024 * 1024) 4194320).1
        = some 4194320 ∧
      4194320 % 64 ≠ 0 := by
  refine ⟨by decide, by decide, by decide, by decide⟩

/-- C6: the requested size is rounded up to the next multiple of 64
before the threshold comparison; a request of `threshold + 1` bytes is
routed to the large-allocation path (pointer returned verbatim, tracked
in the large list, no block touched, outside every block range), while a
request of exactly `threshold` bytes is served by bump allocation from a
block of the chain. -/

theorem C6_threshold_routing (p : PoolState) (a1 a2 : Nat)
    (hleg1 : StepLegal p (LARGE_ALLOCATION_THRESHOLD + 1) a1) :
    align64 (LARGE_ALLOCATION_THRESHOLD + 1) = LARGE_ALLOCATION_THRESHOLD + 64 ∧
    align64 LARGE_ALLOCATION_THRESHOLD = LARGE_ALLOCATION_THRESHOLD ∧
    (tl_pool_alloc p (LARGE_ALLOCATION_THRESHOLD + 1) a1).1 = some a1 ∧
    (tl_pool_alloc p (LARGE_ALLOCATION_THRESHOLD + 1) a1).2.largeAllocs
      = p.largeAllocs ++ [(a1, LARGE_ALLOCATION_THRESHOLD + 64)] ∧
    (tl_pool_alloc p (LARGE_ALLOCATION_THRESHOLD + 1) a1).2.blocks = p.blocks ∧
    (∀ b ∈ p.blocks, ¬ (b.addr ≤ a1 ∧ a1 < b.addr + b.size)) ∧
    (∃ ptr, (tl_pool_alloc p LARGE_ALLOCATION_THRESHOLD a2).1 = some ptr ∧
      (tl_pool_alloc p LARGE_ALLOCATION_THRESHOLD a2).2.largeAllocs
        = p.largeAllocs ∧
      ∃ b ∈ (tl_pool_alloc p LARGE_ALLOCATION_THRESHOLD a2).2.blocks,
        b.addr ≤ ptr ∧ ptr < b.addr + b.size) := by
  have hA : align64 (LARGE_ALLOCATION_THRESHOLD + 1)
      = LARGE_ALLOCATION_THRESHOLD + 64 := by decide
  have hB : align64 LARGE_ALLOCATION_THRESHOLD = LARGE_ALLOCATION_THRESHOLD := by
    decide
  have hbig1 : align64 (LARGE_ALLOCATION_THRESHOLD + 1)
      > LARGE_ALLOCATION_THRESHOLD := by
    rw [hA]
    omega
  have hnz1 : ¬ (LARGE_ALLOCATION_THRESHOLD + 1 = 0) := by decide
  have hnz2 : ¬ (LARGE_ALLOCATION_THRESHOLD = 0) := by decide
  have hnbig2 : ¬ align64 LARGE_ALLOCATION_THRESHOLD
      > LARGE_ALLOCATION_THRESHOLD := by
    rw [hB]
    omega
  unfold StepLegal at hleg1
  rw [if_neg hnz1, if_pos hbig1] at hleg1
  obtain ⟨_, hfb, _⟩ := hleg1
  refine ⟨hA, hB, ?_, ?_, ?_, ?_, ?_⟩
  · simp only [tl_pool_alloc, if_neg hnz1, if_pos hbig1]
  · simp only [tl_pool_alloc, if_neg hnz1, if_pos hbig1]
    rw [hA]
  · simp only [tl_pool_alloc, if_neg hnz1, if_pos hbig1]
  · intro b hb hin
    have hdisj := hfb b hb
    unfold RangeDisj at hdisj
    have h64 : 64 ≤ align64 (LARGE_ALLOCATION_THRESHOLD + 1) := by
      rw [hA]
      omega
    rcases hdisj with hdisj | hdisj <;> omega
  · by_cases hnew : needNewBlock p (align64 LARGE_ALLOCATION_THRESHOLD) = true
    · refine ⟨a2, ?_, ?_, ?_⟩
      · simp only [tl_pool_alloc, if_neg hnz2, if_neg hnbig2, if_pos hnew]
      · simp only [tl_pool_alloc, if_neg hnz2, if_neg hnbig2, if_pos hnew]
      · refine ⟨⟨a2, max p.default_block_size (align64 LARGE_ALLOCATION_THRESHOLD * 2),
          align64 LARGE_ALLOCATION_THRESHOLD⟩, ?_, ?_, ?_⟩
        · simp only [tl_pool_alloc, if_neg hnz2, if_neg hnbig2, if_pos hnew]
          exact List.mem_append_right _ (List.mem_singleton.mpr rfl)
        · exact le_refl a2
        · show a2 < a2 + max p.default_block_size (align64 LARGE_ALLOCATION_THRESHOLD * 2)
          have : 64 ≤ align64 LARGE_ALLOCATION_THRESHOLD := by decide
          have := le_max_right p.default_block_size
            (align64 LARGE_ALLOCATION_THRESHOLD * 2)
          omega
    · rcases hcur : p.curIdx with _ | i
      · exfalso
        apply hnew
        unfold needNewBlock curBlock
        rw [hcur]
        rfl
      rcases hbi : p.blocks[i]? with _ | b
      · exfalso
        apply hnew
        unfold needNewBlock curBlock
        rw [hcur]
        simp [hbi]
      have hfit : b.used + align64 LARGE_ALLOCATION_THRESHOLD ≤ b.size := by
        unfold needNewBlock curBlock at hnew
        rw [hcur] at hnew
        simp [hbi] at hnew
        omega
      have hi := getElem?_some_lt hbi
      refine ⟨b.addr + b.used, ?_, ?_, ?_⟩
      · simp only [tl_pool_alloc, if_neg hnz2, if_neg hnbig2, if_neg hnew, hcur,
          Option.getD_some, hbi]
      · simp only [tl_pool_alloc, if_neg hnz2, if_neg hnbig2, if_neg hnew, hcur,
          Option.getD_some, hbi]
      · refine ⟨⟨b.addr, b.size, b.used + align64 LARGE_ALLOCATION_THRESHOLD⟩, ?_, ?_, ?_⟩
        · simp only [tl_pool_alloc, if_neg hnz2, if_neg hnbig2, if_neg hnew, hcur,
            Option.getD_some, hbi]
          apply List.getElem?_mem
          rw [List.getElem?_set, if_pos rfl, if_pos hi]
        · show b.addr ≤ b.addr + b.used
          omega
        · show b.addr + b.used < b.addr + b.size
          have : 64 ≤ align64 LARGE_ALLOCATION_THRESHOLD := by decide
          omega

theorem C6_threshold_routing_witness :
    align64 (LARGE_ALLOCATION_THRESHOLD + 1) = LARGE_ALLOCATION_THRESHOLD + 64 ∧
    align64 LARGE_ALLOCATION_THRESHOLD = LARGE_ALLOCATION_THRESHOLD ∧
    (tl_pool_alloc (tl_pool_create (2 * 1024 * 1024) 0)
      (LARGE_ALLOCATION_THRESHOLD + 1) 4194304).1 = some 4194304 ∧
    (tl_pool_alloc (tl_pool_create (2 * 1024 * 1024) 0)
      (LARGE_ALLOCATION_THRESHOLD + 1) 4194304).2.largeAllocs
      = (tl_pool_create (2 * 1024 * 1024) 0).largeAllocs
        ++ [(4194304, LARGE_ALLOCATION_THRESHOLD + 64)] ∧
    (tl_pool_alloc (tl_pool_create (2 * 1024 * 1024) 0)
      (LARGE_ALLOCATION_THRESHOLD + 1) 4194304).2.blocks
      = (tl_pool_create (2 * 1024 * 1024) 0).blocks ∧
    (∀ b ∈ (tl_pool_create (2 * 1024 * 1024) 0).blocks,
      ¬ (b.addr ≤ 4194304 ∧ 4194304 < b.addr + b.size)) ∧
    (∃ ptr, (tl_pool_alloc (tl_pool_create (2 * 1024 * 1024) 0)
        LARGE_ALLOCATION_THRESHOLD 8388608).1 = some ptr ∧
      (tl_pool_alloc (tl_pool_create (2 * 1024 * 1024) 0)
        LARGE_ALLOCATION_THRESHOLD 8388608).2.largeAllocs
        = (tl_pool_create (2 * 1024 * 1024) 0).largeAllocs ∧
      ∃ b ∈ (tl_pool_alloc (tl_pool_create (2 * 1024 * 1024) 0)
          LARGE_ALLOCATION_THRESHOLD 8388608).2.blocks,
        b.addr ≤ ptr ∧ ptr < b.addr + b.size) :=
  C6_threshold_routing (tl_pool_create (2 * 1024 * 1024) 0) 4194304 8388608
    (by decide)

/-- C4 (code bug): `arena_alloc` grows the arena with `realloc`, which
may move the buffer.  Concrete run: an arena of capacity 8 at address
1000 hands out pointer 1000; the next allocation overflows the capacity
and `realloc` legally moves the buffer to 5000 (size 16).  The earlier
pointer 1000 no longer lies in `[base, base + size) = [5000, 5016)`:
growth invalidated it, contradicting the claim that the buffer is never
moved and earlier pointers stay valid until destroy/reset. -/

theorem C4_realloc_moves_buffer :
    (arena_alloc (arena_create 8 1000) 8 1000).1 = some 1000 ∧
      (arena_alloc (arena_alloc (arena_create 8 1000) 8 1000).2 8 5000).2.ptr
        = 5000 ∧
      (arena_alloc (arena_alloc (arena_create 8 1000) 8 1000).2 8 5000).2.size
        = 16 ∧
      ¬ (5000 ≤ 1000 ∧
          1000 < 5000 + (arena_alloc (arena_alloc (arena_create 8 1000) 8 1000).2
            8 5000).2.size) := by
  refine ⟨by decide, by decide, by decide, by decide⟩
